import Mathlib

/-!
Verification of the accounting expression processor
(`mis_builder/models/aep.py`, class `AccountingExpressionProcessor`).

The Python source is shallowly embedded below.  Monetary amounts (Python
floats) are modelled as rationals `ℚ`; account / company / currency record
ids as `Nat`; Python dicts as association lists with insert-or-overwrite
semantics (`dinsert` / `dlookup`); the three-valued accounting values
(either a number or the distinguished `AccountingNone` "no data" marker)
as `Option ℚ` with `none` playing the role of `AccountingNone`.

External collaborators (the Odoo ORM: `read_group`, `search`, currency
rates, `float_is_zero`, `safe_eval`, fiscal year computation) are taken as
parameters of the embedded functions, so every theorem quantifies over the
behaviour of the surrounding system.
-/

/-- Modelled from the spec: `accounting_none.py` (the `AccountingNone`
sentinel and its arithmetic) is imported by `aep.py` but its source is not
part of the provided files.  Per the spec's data model: `Unset + x = x`,
`x + Unset = x`, `Unset + Unset = Unset`; numbers add normally.
`none` is `AccountingNone`. -/
def aAdd : Option ℚ → Option ℚ → Option ℚ
  | none, none => none
  | none, some y => some y
  | some x, none => some x
  | some x, some y => some (x + y)

/-- Modelled from the spec: subtraction for `AccountingNone` values:
`Unset - x = -x`, `x - Unset = x`, `Unset - Unset = Unset`. -/
def aSub : Option ℚ → Option ℚ → Option ℚ
  | none, none => none
  | none, some y => some (-y)
  | some x, none => some x
  | some x, some y => some (x - y)

/-! ### Python dict model: association lists with insert-or-overwrite -/

/-- Lookup in a dict modelled as an association list (first match). -/
def dlookup {α β : Type} [DecidableEq α] : List (α × β) → α → Option β
  | [], _ => none
  | (k', v) :: rest, k => if k = k' then some v else dlookup rest k

/-- Dict assignment `m[k] = v`: overwrite in place, or append a new entry
(Python dicts preserve insertion order). -/
def dinsert {α β : Type} [DecidableEq α] : List (α × β) → α → β → List (α × β)
  | [], k, v => [(k, v)]
  | (k', v') :: rest, k, v =>
      if k = k' then (k, v) :: rest else (k', v') :: dinsert rest k v

/-- Read of a `defaultdict` entry with default `d`. -/
def dgetD {α β : Type} [DecidableEq α] (m : List (α × β)) (k : α) (d : β) : β :=
  (dlookup m k).getD d

/-- Membership-preserving set union on lists (models Python `set` union:
only membership is relevant to the theorems below). -/
def set_union {α : Type} [DecidableEq α] (l₁ l₂ : List α) : List α :=
  l₁ ++ l₂.filter (fun x => x ∉ l₁)

/-! ### The accounting-variable regular expression

`_ACC_RE = (?P<field>\bbal|\bcrd|\bdeb)(?P<mode>[piseu])?`
`(?P<accounts>_[a-zA-Z0-9]+|\[.*?\])(?P<domain>\[.*?\])?`
`(?P<exchange_rate_date>[send])?`

For this particular pattern Python's backtracking is deterministic:
* the optional mode character, when present, can never be the start of the
  accounts group (which begins with `_` or `[`), so consuming it is forced;
* everything after the accounts group is optional, so the greedy
  `[a-zA-Z0-9]+` run is maximal and the lazy `\[.*?\]` stops at the first
  `]` (with `.` not matching a newline).
The matcher below implements exactly that. -/

/-- Python 2 `\w` (no `re.UNICODE`): ASCII letters, digits, underscore. -/
def isWordChar (c : Char) : Bool :=
  (('a' ≤ c && c ≤ 'z') || ('A' ≤ c && c ≤ 'Z') || ('0' ≤ c && c ≤ '9') || c = '_')

/-- The class `[a-zA-Z0-9]` (the accounts character class excludes `_`). -/
def isAlnumAscii (c : Char) : Bool :=
  (('a' ≤ c && c ≤ 'z') || ('A' ≤ c && c ≤ 'Z') || ('0' ≤ c && c ≤ '9'))

/-- Lazy `\[.*?\]` after the opening `[` was consumed: scan to the first
`]`; fail on a newline (`.` does not match `\n`) or end of input.
Returns (content between the brackets, suffix after `]`). -/
def scanBracket : List Char → Option (List Char × List Char)
  | [] => none
  | c :: rest =>
      if c = ']' then some ([], rest)
      else if c = '\n' then none
      else match scanBracket rest with
        | some (content, r) => some (c :: content, r)
        | none => none

/-- Maximal greedy `[a-zA-Z0-9]*` run. -/
def alnumRun : List Char → List Char × List Char
  | [] => ([], [])
  | c :: rest =>
      if isAlnumAscii c then
        let (run, r) := alnumRun rest
        (c :: run, r)
      else ([], c :: rest)

/-- Field alternation `\bbal|\bcrd|\bdeb` (the boundary is checked by the caller). -/
def fieldAt : List Char → Option (String × List Char)
  | 'b' :: 'a' :: 'l' :: r => some ("bal", r)
  | 'c' :: 'r' :: 'd' :: r => some ("crd", r)
  | 'd' :: 'e' :: 'b' :: r => some ("deb", r)
  | _ => none

/-- Accounts group `(?P<accounts>_[a-zA-Z0-9]+|\[.*?\])`: returns the raw matched group
text (including the leading `_` or the surrounding brackets). -/
def accountsAt : List Char → Option (List Char × List Char)
  | '_' :: rest =>
      match rest with
      | c :: _ =>
          if isAlnumAscii c then
            let (run, r) := alnumRun rest
            some ('_' :: run, r)
          else none
      | [] => none
  | '[' :: rest =>
      match scanBracket rest with
      | some (content, r) => some ('[' :: content ++ [']'], r)
      | none => none
  | _ => none

/-- Raw groups of one match of `_ACC_RE`. -/
structure MatchData where
  field : String
  modeChar : Option Char
  accountsRaw : List Char
  domainRaw : Option (List Char)
  erd : Option Char
deriving DecidableEq, Repr

/-- Boundary `\b` before the field keyword: the following char is a word char, so
the boundary holds iff the preceding char (if any) is not one. -/
def boundaryOk : Option Char → Bool
  | none => true
  | some c => !isWordChar c

/-- Attempt to match `_ACC_RE` at the start of `s`, `prev` being the
character just before `s` in the scanned text.  On success returns the
match data, the consumed text and the remaining suffix. -/
def matchAt (prev : Option Char) (s : List Char) :
    Option (MatchData × List Char × List Char) :=
  if boundaryOk prev then
    match fieldAt s with
    | none => none
    | some (f, r1) =>
        let st2 : Option Char × List Char :=
          match r1 with
          | c :: rest => if c ∈ ['p', 'i', 's', 'e', 'u'] then (some c, rest) else (none, r1)
          | [] => (none, r1)
        match accountsAt st2.2 with
        | none => none
        | some (accRaw, r3) =>
            let st4 : Option (List Char) × List Char :=
              match r3 with
              | '[' :: rest =>
                  match scanBracket rest with
                  | some (content, r) => (some ('[' :: content ++ [']']), r)
                  | none => (none, r3)
              | _ => (none, r3)
            let st5 : Option Char × List Char :=
              match st4.2 with
              | c :: rest => if c ∈ ['s', 'e', 'n', 'd'] then (some c, rest) else (none, st4.2)
              | [] => (none, st4.2)
            let consumed :=
              (f.toList ++ (st2.1.map ([·])).getD []) ++ accRaw ++
                (st4.1.getD []) ++ ((st5.1.map ([·])).getD [])
            some (⟨f, st2.1, accRaw, st4.1, st5.1⟩, consumed, st5.2)
  else none

/-- Scan as in `re.finditer`: left to right, collect non-overlapping matches,
resume after each match.  `fuel` bounds the recursion (≥ length of `s`). -/
def findIterAux (fuel : Nat) (prev : Option Char) (s : List Char) : List MatchData :=
  match fuel with
  | 0 => []
  | fuel + 1 =>
      match s with
      | [] => []
      | c :: rest =>
          match matchAt prev s with
          | some (m, consumed, remaining) =>
              m :: findIterAux fuel consumed.getLast? remaining
          | none => findIterAux fuel (some c) rest

/-- All matches of `_ACC_RE` in `s` (`_ACC_RE.finditer`). -/
def findIter (s : List Char) : List MatchData := findIterAux s.length none s

/-- Substitution `_ACC_RE.sub f s`: replace every match by `f` applied to its groups. -/
def subAux (f : MatchData → List Char) (fuel : Nat) (prev : Option Char)
    (s : List Char) : List Char :=
  match fuel with
  | 0 => s
  | fuel + 1 =>
      match s with
      | [] => []
      | c :: rest =>
          match matchAt prev s with
          | some (m, consumed, remaining) =>
              f m ++ subAux f fuel consumed.getLast? remaining
          | none => c :: subAux f fuel (some c) rest

/-- Substitution `_ACC_RE.sub f s`. -/
def reSub (f : MatchData → List Char) (s : List Char) : List Char :=
  subAux f s.length none s

/-- Search (`_ACC_RE.search`) viewed as a scan: is there a match anywhere, `prev`
being the character before `s`? -/
def hasMatchAux (prev : Option Char) : List Char → Bool
  | [] => false
  | c :: rest => (matchAt prev (c :: rest)).isSome || hasMatchAux (some c) rest

/-- Embeds `AccountingExpressionProcessor.has_account_var`. -/
def has_account_var (s : List Char) : Bool := hasMatchAux none s

/-! ### Parsing a match object (`_parse_match_object`) -/

/-- Aggregation modes (`MODE_VARIATION = 'p'`, `MODE_INITIAL = 'i'`,
`MODE_END = 'e'`, `MODE_UNALLOCATED = 'u'`). -/
inductive Mode
  | p
  | i
  | e
  | u
deriving DecidableEq, Repr

/-- The move-line filter tuple obtained from `safe_eval` of the optional
domain group.  Its contents are opaque to the processor (it only compares
keys for equality), so it is modelled as a list of atom strings. -/
abbrev Dom : Type := List (List Char)

/-- An account code selector: `none` means "all accounts" (empty selector
list), `some c` an exact code or a `%` pattern. -/
abbrev Code : Type := Option (List Char)

/-- The tuple `(domain, mode, exchange_rate_date)`: the aggregation key used in
`_map_account_ids` and `_data`. -/
structure Key where
  dom : Dom
  mode : Mode
  erd : Option Char
deriving DecidableEq

/-- Python `str.strip()` (whitespace at both ends). -/
def pstrip (s : List Char) : List Char :=
  ((s.dropWhile Char.isWhitespace).reverse.dropWhile Char.isWhitespace).reverse

/-- Python `str.split(',')`. -/
def splitComma (s : List Char) : List (List Char) :=
  s.foldr
    (fun c acc =>
      match acc with
      | [] => [[c]]
      | cur :: rest => if c = ',' then [] :: cur :: rest else (c :: cur) :: rest)
    [[]]

/-- Result of `_parse_match_object`: field, normalized mode, account code
list, evaluated domain tuple, exchange-rate-date hint. -/
structure PMatch where
  field : String
  mode : Mode
  codes : List Code
  dom : Dom
  erd : Option Char
deriving DecidableEq

/-- Embeds `_parse_match_object`: no mode means variation, `'s'` is an alias for
the end mode; the accounts group is stripped of its `_` or brackets and
split on commas (an empty selector meaning "all accounts"); the domain
group defaults to `'[]'` and goes through `safe_eval` (modelled by the
`safeEvalD` parameter, the external evaluator). -/
def parse_match_object (safeEvalD : List Char → Dom) (mo : MatchData) : PMatch :=
  let mode : Mode :=
    match mo.modeChar with
    | none => Mode.p
    | some 's' => Mode.e
    | some 'i' => Mode.i
    | some 'e' => Mode.e
    | some 'u' => Mode.u
    | some _ => Mode.p
  let inner : List Char :=
    if mo.accountsRaw.head? = some '_' then mo.accountsRaw.drop 1
    else (mo.accountsRaw.drop 1).dropLast
  let codes : List Code :=
    if (pstrip inner).isEmpty then [none]
    else (splitComma inner).map (fun a => some (pstrip a))
  let dom := safeEvalD (mo.domainRaw.getD ('[' :: ']' :: []))
  ⟨mo.field, mode, codes, dom, mo.erd⟩

/-! ### The planner map `_map_account_ids`

Before `done_parsing` its values are sets of account codes; afterwards
they are lists of account ids.  A later `parse_expr` calling
`set.update` on a list raises `AttributeError`, modelled as `Except.error`. -/

/-- A value of `_map_account_ids`: a pending code set or a finalized id
list. -/
inductive MapVal
  | codes (cs : List Code)
  | ids (l : List Nat)
deriving DecidableEq

abbrev KeyMap : Type := List (Key × MapVal)

/-- Embeds `self._map_account_ids[key].update(account_codes)` on the
`defaultdict(set)`: a fresh key gets a new set; a key holding a finalized
id list raises (`list` has no `update`). -/
def map_update (m : KeyMap) (k : Key) (codes : List Code) : Except Unit KeyMap :=
  match dlookup m k with
  | some (MapVal.codes cs) => Except.ok (dinsert m k (MapVal.codes (set_union cs codes)))
  | some (MapVal.ids _) => Except.error ()
  | none => Except.ok (m ++ [(k, MapVal.codes codes)])

/-- Smart-end expansion (`parse_expr` lines 162-165): an end-mode match
under `smart_end` also registers the initial and variation keys. -/
def expand_modes (smart_end : Bool) (m : Mode) : List Mode :=
  if m = Mode.e ∧ smart_end then [Mode.i, Mode.p, Mode.e] else [m]

/-- The `(key, account code set)` updates performed by `parse_expr` for
one expression, in order. -/
def updates_of (safeEvalD : List Char → Dom) (smart_end : Bool) (expr : List Char) :
    List (Key × List Code) :=
  (findIter expr).flatMap fun mo =>
    let pm := parse_match_object safeEvalD mo
    (expand_modes smart_end pm.mode).map fun md => (⟨pm.dom, md, pm.erd⟩, pm.codes)

/-- Apply a sequence of planner-map updates; the first failing update
aborts (the Python exception propagates). -/
def apply_updates (m : KeyMap) : List (Key × List Code) → Except Unit KeyMap
  | [] => Except.ok m
  | (k, cs) :: rest =>
      match map_update m k cs with
      | Except.ok m' => apply_updates m' rest
      | Except.error e => Except.error e

/-- Embeds `parse_expr`: for every match of `_ACC_RE` in the expression, union
its account codes into the pending set of each of its (expanded) keys. -/
def parse_expr (safeEvalD : List Char → Dom) (smart_end : Bool) (m : KeyMap)
    (expr : List Char) : Except Unit KeyMap :=
  apply_updates m (updates_of safeEvalD smart_end expr)

/-- Repeated `parse_expr` over a list of expressions. -/
def register_all (safeEvalD : List Char → Dom) (smart_end : Bool)
    (exprs : List (List Char)) : Except Unit KeyMap :=
  exprs.foldl
    (fun acc e =>
      match acc with
      | Except.ok m => parse_expr safeEvalD smart_end m e
      | Except.error err => Except.error err)
    (Except.ok [])

/-! ### Account resolution (`_load_account_codes`, `done_parsing`) -/

/-- An `account.account` record (the fields the processor reads). -/
structure Account where
  id : Nat
  code : List Char
  company_id : Nat
deriving DecidableEq

/-- SQL `LIKE` matching as used by the Odoo `=like` operator: `%` matches
any sequence, `_` any single character; everything else is literal.
`fuel` bounds the recursion (≥ pattern length + string length). -/
def likeMatchF : Nat → List Char → List Char → Bool
  | 0, _, _ => false
  | _ + 1, [], s => s.isEmpty
  | fuel + 1, '%' :: p, s =>
      likeMatchF fuel p s ||
        (match s with
         | [] => false
         | _ :: s' => likeMatchF fuel ('%' :: p) s')
  | fuel + 1, '_' :: p, s =>
      (match s with
       | [] => false
       | _ :: s' => likeMatchF fuel p s')
  | fuel + 1, c :: p, s =>
      (match s with
       | [] => false
       | c' :: s' => c = c' && likeMatchF fuel p s')

/-- Embeds the `('code', '=like', pattern)` search condition. -/
def odooLike (p s : List Char) : Bool := likeMatchF (p.length + s.length + 1) p s

/-- The `_account_ids_by_code` memo table. -/
abbrev ABC : Type := List (Code × List Nat)

/-- One iteration of the first loop of `_load_account_codes`: skip codes
already resolved; `None` resolves to all accounts of the companies; a
`%` code resolves through `=like`; exact codes are collected for the
batched search after the loop. -/
def load_code_step (accounts : List Account) (company_ids : List Nat)
    (st : ABC × List (List Char)) (code : Code) : ABC × List (List Char) :=
  let (abc, exact) := st
  if (dlookup abc code).isSome then (abc, exact)
  else
    match code with
    | none =>
        let found := (accounts.filter (fun a => a.company_id ∈ company_ids)).map Account.id
        (dinsert abc none found, exact)
    | some c =>
        if '%' ∈ c then
          let found :=
            (accounts.filter (fun a => odooLike c a.code && a.company_id ∈ company_ids)).map
              Account.id
          (dinsert abc (some c) found, exact)
        else (abc, exact ++ [c])

/-- Embeds `_load_account_codes`: resolve a batch of account codes into the
`_account_ids_by_code` memo table.  The exact codes collected during the
loop are searched in one batch afterwards; codes matching nothing simply
get no (or an empty) entry — never an error. -/
def load_account_codes (accounts : List Account) (company_ids : List Nat)
    (abc : ABC) (codes : List Code) : ABC :=
  let (abc1, exact) := codes.foldl (load_code_step accounts company_ids) (abc, [])
  let found := accounts.filter (fun a => a.code ∈ exact && a.company_id ∈ company_ids)
  found.foldl
    (fun abc a =>
      let cur := dgetD abc (some a.code) []
      dinsert abc (some a.code) (if a.id ∈ cur then cur else cur ++ [a.id]))
    abc1

/-- One entry of the `done_parsing` loop: resolve the key's pending code
set and replace it by the union of the resolved id sets.  (An already
finalized value is left untouched; re-finalizing is outside the modelled
behaviour — in Python it would raise while iterating ints.) -/
def done_key_step (accounts : List Account) (company_ids : List Nat)
    (st : KeyMap × ABC) (kv : Key × MapVal) : KeyMap × ABC :=
  let (m, abc) := st
  match kv.2 with
  | MapVal.codes codes =>
      let abc' := load_account_codes accounts company_ids abc codes
      let ids := codes.foldl (fun s c => set_union s (dgetD abc' c [])) []
      (dinsert m kv.1 (MapVal.ids ids), abc')
  | MapVal.ids l => (dinsert m kv.1 (MapVal.ids l), abc)

/-- Embeds `done_parsing`: load account codes and replace each key's code set by
the list of resolved account ids. -/
def done_parsing (accounts : List Account) (company_ids : List Nat)
    (st : KeyMap × ABC) : KeyMap × ABC :=
  st.1.foldl (done_key_step accounts company_ids) st

/-! ### `do_queries` -/

/-- Per-key result table values: account id → (debit, credit), each side a
number or `AccountingNone`. -/
abbrev AccMap : Type := List (Nat × (Option ℚ × Option ℚ))

/-- A key of the `_data` defaultdict.  `do_queries` stores results under
3-tuples `(domain, mode, exchange_rate_date)`; `_get_balances` reads a
2-tuple `((), mode)` — Python tuples of different lengths are distinct
dict keys, hence the two constructors. -/
inductive DataKey
  | three (k : Key)
  | two (d : Dom) (m : Mode)
deriving DecidableEq

abbrev Data : Type := List (DataKey × AccMap)

/-- A row of `read_group(domain, ['debit','credit','account_id',
'company_id'], ['account_id','company_id'], lazy=False)`.  The `or 0.0`
NULL handling is folded into the ℚ fields. -/
structure RGRow where
  account_id : Nat
  company_id : Nat
  debit : ℚ
  credit : ℚ
deriving DecidableEq

/-- An `account_move_line` record as seen by the raw daily-rate SQL query
(its WHERE clause is part of the external store abstraction). -/
structure MoveLine where
  account_id : Nat
  company_currency_id : Nat
  date : Nat
  date_maturity : Nat
  debit : ℚ
  credit : ℚ
deriving DecidableEq

/-- A fetched row of the raw SQL query: sums of debit/credit grouped by
`account_id, company_currency_id, date_maturity`. -/
structure DRow where
  debit : ℚ
  credit : ℚ
  account_id : Nat
  company_currency_id : Nat
  date_maturity : Nat
deriving DecidableEq

/-- The `GROUP BY account_id, company_currency_id, date_maturity` of the
raw SQL query issued when the processor-level exchange-rate policy is
`'d'` (daily). -/
def sqlGroupRows (lines : List MoveLine) : List DRow :=
  ((lines.map fun l => (l.account_id, l.company_currency_id, l.date_maturity)).dedup).map
    fun g =>
      let grp := lines.filter fun l =>
        (l.account_id, l.company_currency_id, l.date_maturity) = g
      ⟨(grp.map MoveLine.debit).sum, (grp.map MoveLine.credit).sum, g.1, g.2.1, g.2.2⟩

/-- External collaborators consumed by `do_queries`. -/
structure ExtWorld where
  /-- `aml_model.read_group` on the domain assembled for a key (the key's
  stored filter, the date filter for its mode, the account filter and the
  additional move line filter): the external ledger store's answer. -/
  readGroup : Key → List RGRow
  /-- the move lines selected by the raw daily-rate SQL for a key's
  assembled domain (before grouping). -/
  ledger : Key → List MoveLine
  /-- `get_company_rates` as used for a key's exchange-rate-date hint
  (lines 302-324): company id → (rate, decimal places). -/
  ratesFor : Option Char → Nat → ℚ × ℚ
  /-- dated currency rate: `res.currency.with_context(date=...).rate`,
  indexed by currency id and date. -/
  dailyRates : Nat → Nat → ℚ
  /-- `decimal_places` of a currency. -/
  dpOf : Nat → ℚ
  /-- `odoo.tools.float_utils.float_is_zero(value, precision_rounding)`. -/
  isZero : ℚ → ℚ → Bool

/-- The non-daily per-row processing of `do_queries` (lines 384-394): for
initial/unallocated modes a row whose raw `debit - credit` is flagged zero
at the company's precision is skipped; otherwise the converted sums are
stored under the row's account id. -/
def process_row_step (isZero : ℚ → ℚ → Bool) (crates : Nat → ℚ × ℚ) (mode : Mode)
    (am : AccMap) (row : RGRow) : AccMap :=
  let rate := (crates row.company_id).1
  let dp := (crates row.company_id).2
  if (mode = Mode.i ∨ mode = Mode.u) ∧ isZero (row.debit - row.credit) dp = true then am
  else dinsert am row.account_id (some (row.debit * rate), some (row.credit * rate))

def process_rows (isZero : ℚ → ℚ → Bool) (crates : Nat → ℚ × ℚ) (mode : Mode)
    (rows : List RGRow) : AccMap :=
  rows.foldl (process_row_step isZero crates mode) []

/-- The daily-rate per-row processing of `do_queries` (lines 356-378): the
rate for a fetched group is taken as of the group's `date_maturity`, and
the converted sums are accumulated per account across groups. -/
def process_daily_rows (isZero : ℚ → ℚ → Bool) (dailyRates : Nat → Nat → ℚ)
    (dpOf : Nat → ℚ) (targetCur : Nat) (mode : Mode) (rows : List DRow) : AccMap :=
  rows.foldl
    (fun am row =>
      let dp := dpOf row.company_currency_id
      if (mode = Mode.i ∨ mode = Mode.u) ∧ isZero (row.debit - row.credit) dp = true then am
      else
        let rate := dailyRates targetCur row.date_maturity /
          dailyRates row.company_currency_id row.date_maturity
        let cur := (dlookup am row.account_id).getD (some 0, some 0)
        dinsert am row.account_id
          (aAdd cur.1 (some (row.debit * rate)), aAdd cur.2 (some (row.credit * rate))))
    []

/-- The deferred smart-end computation for one end key (lines 396-408):
for every account in the union of the initial and variation results of the
same domain and exchange-rate-date, the end entry is the componentwise
`AccountingNone`-aware sum. -/
def end_ids (data : Data) (key : Key) : List Nat :=
  ((dgetD data (DataKey.three ⟨key.dom, Mode.i, key.erd⟩) []).map Prod.fst ++
    (dgetD data (DataKey.three ⟨key.dom, Mode.p, key.erd⟩) []).map Prod.fst).dedup

/-- Computes `initial_data.get(account_id, (AccountingNone, AccountingNone)) +
variation_data.get(...)` componentwise, in `AccountingNone` arithmetic. -/
def end_value (data : Data) (key : Key) (a : Nat) : Option ℚ × Option ℚ :=
  let iv := (dlookup (dgetD data (DataKey.three ⟨key.dom, Mode.i, key.erd⟩) []) a).getD
    (none, none)
  let vv := (dlookup (dgetD data (DataKey.three ⟨key.dom, Mode.p, key.erd⟩) []) a).getD
    (none, none)
  (aAdd iv.1 vv.1, aAdd iv.2 vv.2)

def computeEnd (data : Data) (key : Key) : Data :=
  dinsert data (DataKey.three key)
    ((end_ids data key).foldl (fun am a => dinsert am a (end_value data key a))
      (dgetD data (DataKey.three key) []))

/-- The per-key result table computed by one non-deferred ledger query of
`do_queries`: the daily raw-SQL path when the processor-level
exchange-rate policy is `'d'`, the `read_group` path otherwise. -/
def query_am (ext : ExtWorld) (procErd : Option Char) (targetCur : Nat) (key : Key) : AccMap :=
  if procErd = some 'd' then
    process_daily_rows ext.isZero ext.dailyRates ext.dpOf targetCur key.mode
      (sqlGroupRows (ext.ledger key))
  else process_rows ext.isZero (ext.ratesFor key.erd) key.mode (ext.readGroup key)

/-- One main-loop iteration of `do_queries` over a key of
`_map_account_ids`: an end key is deferred under `smart_end`; otherwise
one grouped-sum ledger query is issued (the count is the third component)
and its rows are processed into `_data[key]`. -/
def query_step (ext : ExtWorld) (procErd : Option Char) (targetCur : Nat) (smart_end : Bool)
    (st : Data × List Key × Nat) (key : Key) : Data × List Key × Nat :=
  let (data, ends, n) := st
  if key.mode = Mode.e ∧ smart_end then (data, ends ++ [key], n)
  else (dinsert data (DataKey.three key) (query_am ext procErd targetCur key), ends, n + 1)

/-- Embeds `do_queries`: one ledger query per non-deferred key of
`_map_account_ids`, then the deferred smart-end computation.  Returns the
`_data` result table and the number of ledger queries issued. -/
def do_queries (ext : ExtWorld) (procErd : Option Char) (targetCur : Nat) (smart_end : Bool)
    (mapKeys : List Key) : Data × Nat :=
  let st := mapKeys.foldl (query_step ext procErd targetCur smart_end) ([], [], 0)
  (st.2.1.foldl computeEnd st.1, st.2.2)

/-! ### `replace_expr` -/

/-- Rendering `repr(v)` of a computed accounting value: `AccountingNone` prints its
"no data" literal (modelled from the spec: the sentinel's source is not in
the provided files), numbers print as Python float literals (modelled by
the rational's string form). -/
def repr_val : Option ℚ → List Char
  | none => String.toList "AccountingNone"
  | some q => (toString q).toList

/-- The value accumulated by `replace_expr.f` over the account codes of a
match: `v += debit - credit` / `debit` / `credit` in `AccountingNone`
arithmetic, starting at `AccountingNone`. -/
def accumulate_value (abc : ABC) (account_ids_data : AccMap) (field : String)
    (codes : List Code) : Option ℚ :=
  codes.foldl
    (fun v code =>
      (dgetD abc code []).foldl
        (fun v account_id =>
          let pr := (dlookup account_ids_data account_id).getD (none, none)
          if field = "bal" then aAdd v (aSub pr.1 pr.2)
          else if field = "deb" then aAdd v pr.1
          else aAdd v pr.2)
        v)
    none

/-- Embeds `replace_expr.f`: compute a match's value from the result table and
render it as `'(' + repr(v) + ')'`, with the initial/unallocated
zero-to-`AccountingNone` normalization at the processor currency's
precision `dp`. -/
def replace_f (safeEvalD : List Char → Dom) (isZero : ℚ → ℚ → Bool) (abc : ABC)
    (data : Data) (dp : ℚ) (mo : MatchData) : List Char :=
  let pm := parse_match_object safeEvalD mo
  let account_ids_data := dgetD data (DataKey.three ⟨pm.dom, pm.mode, pm.erd⟩) []
  let v := accumulate_value abc account_ids_data pm.field pm.codes
  let v :=
    match v with
    | some x =>
        if (pm.mode = Mode.i ∨ pm.mode = Mode.u) ∧ isZero x dp = true then none else some x
    | none => none
  '(' :: repr_val v ++ [')']

/-- Embeds `replace_expr`: substitute every accounting variable of the expression
by its rendered value. -/
def replace_expr (safeEvalD : List Char → Dom) (isZero : ℚ → ℚ → Bool) (abc : ABC)
    (data : Data) (dp : ℚ) (s : List Char) : List Char :=
  reSub (replace_f safeEvalD isZero abc data dp) s

/-! ### `get_aml_domain_for_dates` -/

/-- Comparison operators appearing in the date conditions (`'>='`, `'<'`,
`'<='`). -/
inductive Cmp
  | ge
  | lt
  | le
deriving DecidableEq

/-- An atomic Odoo domain condition as built by
`get_aml_domain_for_dates`:
`('date', op, d)`, `('user_type_id.include_initial_balance', '=', b)`,
`('move_id.state', '=', s)`, and the normalizer's `TRUE_LEAF`. -/
inductive Cond
  | trueLeaf
  | dateCmp (c : Cmp) (d : Nat)
  | includeInitialBal (b : Bool)
  | moveState (s : String)
deriving DecidableEq

/-- A token of an Odoo domain in (possibly implicit) prefix form. -/
inductive Term
  | cond (c : Cond)
  | andT
  | orT
  | notT
deriving DecidableEq

/-- One step of `odoo.models.expression.normalize_domain`: insert the
implicit `'&'` operators to obtain a fully prefix-normal domain. -/
def norm_step (st : List Term × Int) (token : Term) : List Term × Int :=
  let result := if st.2 = 0 then Term.andT :: st.1 else st.1
  let expected : Int := if st.2 = 0 then 1 else st.2
  let expected :=
    match token with
    | Term.cond _ => expected - 1
    | Term.andT => expected + 1
    | Term.orT => expected + 1
    | Term.notT => expected
  (result ++ [token], expected)

/-- Embeds `expression.normalize_domain` (external helper used verbatim by
`get_aml_domain_for_dates`). -/
def normalize_domain (domain : List Term) : List Term :=
  if domain = [] then [Term.cond Cond.trueLeaf]
  else (domain.foldl norm_step ([], 1)).1

/-- Embeds `get_aml_domain_for_dates`: build the date filter for a mode.
`fy_date_from` is the fiscal year start computed for `date_from` by the
external fiscal calendar (`compute_fiscalyear_dates`); dates are totally
ordered and modelled as `Nat`. -/
def get_aml_domain_for_dates (fy_date_from : Nat) (date_from date_to : Nat) (mode : Mode)
    (target_move : String) : List Term :=
  let domain : List Term :=
    match mode with
    | Mode.p =>
        [Term.cond (Cond.dateCmp Cmp.ge date_from), Term.cond (Cond.dateCmp Cmp.le date_to)]
    | Mode.i =>
        [Term.orT, Term.cond (Cond.dateCmp Cmp.ge fy_date_from),
          Term.cond (Cond.includeInitialBal true), Term.cond (Cond.dateCmp Cmp.lt date_from)]
    | Mode.e =>
        [Term.orT, Term.cond (Cond.dateCmp Cmp.ge fy_date_from),
          Term.cond (Cond.includeInitialBal true), Term.cond (Cond.dateCmp Cmp.le date_to)]
    | Mode.u =>
        [Term.cond (Cond.dateCmp Cmp.lt fy_date_from), Term.cond (Cond.includeInitialBal false)]
  let domain :=
    if target_move = "posted" then domain ++ [Term.cond (Cond.moveState "posted")] else domain
  normalize_domain domain

/-- A move line record as tested by a date domain. -/
structure MLRecord where
  date : Nat
  include_initial_balance : Bool
  state : String

/-- Truth of an atomic condition on a record. -/
def evalCond (r : MLRecord) : Cond → Bool
  | Cond.trueLeaf => true
  | Cond.dateCmp Cmp.ge d => decide (d ≤ r.date)
  | Cond.dateCmp Cmp.lt d => decide (r.date < d)
  | Cond.dateCmp Cmp.le d => decide (r.date ≤ d)
  | Cond.includeInitialBal b => decide (r.include_initial_balance = b)
  | Cond.moveState s => decide (r.state = s)

/-- Evaluate one prefix expression from a token stream, returning its
truth value and the unconsumed suffix; `fuel` bounds the nesting depth. -/
def evalTerms (r : MLRecord) : Nat → List Term → Option (Bool × List Term)
  | 0, _ => none
  | _ + 1, [] => none
  | _ + 1, Term.cond c :: rest => some (evalCond r c, rest)
  | fuel + 1, Term.andT :: rest =>
      (evalTerms r fuel rest).bind fun p =>
        (evalTerms r fuel p.2).map fun q => (p.1 && q.1, q.2)
  | fuel + 1, Term.orT :: rest =>
      (evalTerms r fuel rest).bind fun p =>
        (evalTerms r fuel p.2).map fun q => (p.1 || q.1, q.2)
  | fuel + 1, Term.notT :: rest =>
      (evalTerms r fuel rest).map fun p => (!p.1, p.2)

/-- Truth of a normalized domain on a record. -/
def evalDomain (r : MLRecord) (ts : List Term) : Bool :=
  match evalTerms r ts.length ts with
  | some (b, _) => b
  | none => false

/-! ### Construction (`__init__`) and the convenience class methods -/

/-- A `res.company` record (the fields the constructor reads). -/
structure Company where
  id : Nat
  currency_id : Nat
deriving DecidableEq

/-- Embeds `__init__`: without an explicit currency, `companies.mapped('currency_id')`
yields the distinct currencies; more than one raises `UserError` before
any query can run.  With an explicit currency, construction always
succeeds.  Returns the processor's currency set. -/
def aep_init (companies : List Company) (currency : Option Nat) : Except Unit (List Nat) :=
  match currency with
  | none =>
      let cur := (companies.map Company.currency_id).dedup
      if 1 < cur.length then Except.error () else Except.ok cur
  | some c => Except.ok [c]

/-- The single-character mode suffix used by `_get_balances` to build its
expression `'deb{mode}[], crd{mode}[]'`. -/
def modeChar : Mode → Char
  | Mode.p => 'p'
  | Mode.i => 'i'
  | Mode.e => 'e'
  | Mode.u => 'u'

/-- The expression string built by `_get_balances`. -/
def balances_expr (m : Mode) : List Char :=
  String.toList "deb" ++ [modeChar m] ++ String.toList "[], crd" ++ [modeChar m] ++
    String.toList "[]"

/-- Embeds `_get_balances`: a fresh processor with `smart_end` disabled parses
`'deb{mode}[], crd{mode}[]'`, finalizes, runs `do_queries` — and then
reads `self._data[((), mode)]`, a 2-tuple key, while `do_queries` stored
everything under 3-tuple keys. -/
def get_balances_impl (ext : ExtWorld) (safeEvalD : List Char → Dom)
    (accounts : List Account) (company_ids : List Nat) (targetCur : Nat) (m : Mode) :
    AccMap :=
  match register_all safeEvalD false [balances_expr m] with
  | Except.error _ => []
  | Except.ok km =>
      let st := done_parsing accounts company_ids (km, [])
      let data := (do_queries ext (some 'n') targetCur false (st.1.map Prod.fst)).1
      dgetD data (DataKey.two [] m) []

/-- Python `sum` over accounting values (starts from the number 0). -/
def pysum (l : List (Option ℚ)) : Option ℚ := l.foldl aAdd (some 0)

/-- Embeds `get_unallocated_pl`: `tuple(map(sum, izip(*bals.values())))` over the
unallocated balances. -/
def get_unallocated_pl (ext : ExtWorld) (safeEvalD : List Char → Dom)
    (accounts : List Account) (company_ids : List Nat) (targetCur : Nat) :
    List (Option ℚ) :=
  let bals := get_balances_impl ext safeEvalD accounts company_ids targetCur Mode.u
  ((bals.map fun kv => [kv.2.1, kv.2.2]).transpose).map pysum

/-- A concrete executable model of the external
`odoo.tools.float_utils.float_is_zero(value, precision_rounding)`: the
value rounds to zero at the given rounding step.  Used only to instantiate
the `isZero` parameter in the concrete scenario worlds below; every
universally quantified statement abstracts over the predicate. -/
def float_is_zero_model (x prec : ℚ) : Bool := decide (|x| < prec)

/-! ### Concrete scenario worlds -/

/-- Every key `do_queries` ever writes is a 3-tuple key. -/
def allThree (data : Data) : Prop :=
  ∀ dk ∈ data.map Prod.fst, ∃ k, dk = DataKey.three k

/-- Concrete world for the daily-rate scenario: one account (id 1) whose
company currency (id 1) is worth 1 target unit on day 1 and 2 target units
on day 2 (target currency id 100); two move lines of 10 debit on days 1
and 2, both maturing on day 5, where the rate is back to 1. -/
def ext7 : ExtWorld where
  readGroup := fun _ => []
  ledger := fun _ =>
    [⟨1, 1, 1, 5, 10, 0⟩, ⟨1, 1, 2, 5, 10, 0⟩]
  ratesFor := fun _ _ => (1, 1)
  dailyRates := fun c day =>
    if c = 100 then 1 else if day = 1 then 1 else if day = 2 then 1 / 2 else 1
  dpOf := fun _ => 1 / 100
  isZero := float_is_zero_model

def key7 : Key := ⟨[], Mode.p, some 'd'⟩

/-- A trivial external `safe_eval` used by concrete scenarios (every
domain string evaluates to the empty filter tuple). -/
def sed0 : List Char → Dom := fun _ => []

/-- The planner map after registering `bal[70]` (smart-end enabled). -/
def km_demo : KeyMap :=
  match register_all sed0 true [String.toList "bal[70]"] with
  | Except.ok m => m
  | Except.error _ => []

/-- The planner map after `done_parsing` on an empty account store. -/
def m_final : KeyMap := (done_parsing [] [] (km_demo, [])).1

/-- Concrete world for C3: one row on account 1 of company 1, raw balance
100, company rate one hundred-thousandth (so the converted balance rounds
to zero at the company's two-decimal precision while the raw one does
not). -/
def ext3 : ExtWorld where
  readGroup := fun _ => [⟨1, 1, 100, 0⟩]
  ledger := fun _ => []
  ratesFor := fun _ _ => (1 / 100000, 1 / 100)
  dailyRates := fun _ _ => 1
  dpOf := fun _ => 1
  isZero := float_is_zero_model

def key3 : Key := ⟨[], Mode.i, none⟩

/-- Concrete world for the C3 witness: one row on account 1 with debit 5
and credit 5 (raw balance exactly zero), rate 1, precision 1/100. -/
def ext3w : ExtWorld where
  readGroup := fun _ => [⟨1, 1, 5, 5⟩]
  ledger := fun _ => []
  ratesFor := fun _ _ => (1, 1 / 100)
  dailyRates := fun _ _ => 1
  dpOf := fun _ => 1
  isZero := float_is_zero_model

/-- Concrete world for the C1 witness: account 1 has initial balance
(100, 0) and variation (50, 20); rates are 1. -/
def ext1 : ExtWorld where
  readGroup := fun k =>
    if k.mode = Mode.i then [⟨1, 1, 100, 0⟩]
    else if k.mode = Mode.p then [⟨1, 1, 50, 20⟩] else []
  ledger := fun _ => []
  ratesFor := fun _ _ => (1, 1)
  dailyRates := fun _ _ => 1
  dpOf := fun _ => 1
  isZero := fun _ _ => false

def keys1 : List Key := [⟨[], Mode.i, none⟩, ⟨[], Mode.p, none⟩, ⟨[], Mode.e, none⟩]

/-- The pending code set of a key (`codes` value, empty for a missing or
finalized key). -/
def codesOf (m : KeyMap) (k : Key) : List Code :=
  match dlookup m k with
  | some (MapVal.codes cs) => cs
  | _ => []

/-! ### Supporting lemmas -/

@[simp] theorem dlookup_nil {α β : Type} [DecidableEq α] (k : α) :
    dlookup ([] : List (α × β)) k = none := rfl

@[simp] theorem dlookup_cons {α β : Type} [DecidableEq α] (k k' : α) (v : β) (rest : List (α × β)) :
    dlookup ((k', v) :: rest) k = if k = k' then some v else dlookup rest k := rfl

theorem dlookup_dinsert {α β : Type} [DecidableEq α] (m : List (α × β)) (k : α) (v : β) :
    dlookup (dinsert m k v) k = some v := by
  induction m with
  | nil => simp [dinsert]
  | cons hd tl ih =>
      obtain ⟨k', v'⟩ := hd
      by_cases h : k = k' <;> simp [dinsert, h, ih]

theorem dlookup_dinsert_ne {α β : Type} [DecidableEq α] (m : List (α × β)) (k k' : α) (v : β)
    (h : k' ≠ k) : dlookup (dinsert m k v) k' = dlookup m k' := by
  induction m with
  | nil => simp [dinsert, dlookup, h]
  | cons hd tl ih =>
      obtain ⟨k₀, v₀⟩ := hd
      by_cases hk : k = k₀
      · subst hk; simp [dinsert, dlookup, h]
      · by_cases hk' : k' = k₀ <;> simp [dinsert, dlookup, hk, hk', ih]

theorem dinsert_keys_mem {α β : Type} [DecidableEq α] (m : List (α × β)) (k : α) (v : β)
    (h : k ∈ m.map Prod.fst) : (dinsert m k v).map Prod.fst = m.map Prod.fst := by
  induction m with
  | nil => simp at h
  | cons hd tl ih =>
      obtain ⟨k₀, v₀⟩ := hd
      by_cases hk : k = k₀
      · subst hk; simp [dinsert]
      · simp only [List.map_cons, List.mem_cons] at h
        rcases h with h | h
        · exact absurd h.symm (Ne.symm hk)
        · simp [dinsert, hk, ih h]

theorem dinsert_keys_new {α β : Type} [DecidableEq α] (m : List (α × β)) (k : α) (v : β)
    (h : k ∉ m.map Prod.fst) :
    (dinsert m k v).map Prod.fst = m.map Prod.fst ++ [k] := by
  induction m with
  | nil => simp [dinsert]
  | cons hd tl ih =>
      obtain ⟨k₀, v₀⟩ := hd
      simp only [List.map_cons, List.mem_cons] at h
      push_neg at h
      simp [dinsert, h.1, ih h.2]

theorem mem_set_union {α : Type} [DecidableEq α] (a : α) (l₁ l₂ : List α) :
    a ∈ set_union l₁ l₂ ↔ a ∈ l₁ ∨ a ∈ l₂ := by
  simp only [set_union, List.mem_append, List.mem_filter, decide_eq_true_eq]
  by_cases h : a ∈ l₁ <;> simp [h]

theorem one_lt_dedup_iff {α : Type} [DecidableEq α] (l : List α) :
    1 < l.dedup.length ↔ ∃ a ∈ l, ∃ b ∈ l, a ≠ b := by
  constructor
  · intro h
    match hd : l.dedup with
    | [] => rw [hd] at h; simp at h
    | [x] => rw [hd] at h; simp at h
    | x :: y :: rest =>
        have hx : x ∈ l.dedup := by rw [hd]; simp
        have hy : y ∈ l.dedup := by rw [hd]; simp
        have hnd := l.nodup_dedup
        rw [hd] at hnd
        have hxy : x ≠ y := by
          intro he
          rw [he] at hnd
          simp at hnd
        exact ⟨x, List.mem_dedup.mp hx, y, List.mem_dedup.mp hy, hxy⟩
  · rintro ⟨a, ha, b, hb, hab⟩
    by_contra h
    push_neg at h
    match hd : l.dedup with
    | [] =>
        have := List.mem_dedup.mpr ha
        rw [hd] at this
        simp at this
    | [x] =>
        have ha' := List.mem_dedup.mpr ha
        have hb' := List.mem_dedup.mpr hb
        rw [hd] at ha' hb'
        simp at ha' hb'
        exact hab (ha'.trans hb'.symm)
    | x :: y :: rest =>
        rw [hd] at h
        simp at h

theorem dinsert_keys_sub {α β : Type} [DecidableEq α] (m : List (α × β)) (k : α) (v : β) :
    ∀ k' ∈ (dinsert m k v).map Prod.fst, k' ∈ m.map Prod.fst ∨ k' = k := by
  intro k' hk'
  by_cases h : k ∈ m.map Prod.fst
  · rw [dinsert_keys_mem m k v h] at hk'
    exact Or.inl hk'
  · rw [dinsert_keys_new m k v h] at hk'
    rcases List.mem_append.mp hk' with h' | h'
    · exact Or.inl h'
    · exact Or.inr (by simpa using h')

theorem allThree_dinsert (data : Data) (k : Key) (am : AccMap) (h : allThree data) :
    allThree (dinsert data (DataKey.three k) am) := by
  intro dk hdk
  rcases dinsert_keys_sub data (DataKey.three k) am dk hdk with h' | h'
  · exact h dk h'
  · exact ⟨k, h'⟩

theorem allThree_query_fold (ext : ExtWorld) (procErd : Option Char) (tc : Nat)
    (smart : Bool) (keys : List Key) (st : Data × List Key × Nat) (h : allThree st.1) :
    allThree (keys.foldl (query_step ext procErd tc smart) st).1 := by
  induction keys generalizing st with
  | nil => exact h
  | cons k rest ih =>
      apply ih
      obtain ⟨data, ends, n⟩ := st
      unfold query_step
      dsimp only
      split
      · exact h
      · exact allThree_dinsert _ _ _ h

theorem allThree_computeEnd_fold (ends : List Key) (data : Data) (h : allThree data) :
    allThree (ends.foldl computeEnd data) := by
  induction ends generalizing data with
  | nil => exact h
  | cons k rest ih =>
      apply ih
      unfold computeEnd
      exact allThree_dinsert _ _ _ h

theorem dlookup_two_eq_none (data : Data) (h : allThree data) (d : Dom) (m : Mode) :
    dlookup data (DataKey.two d m) = none := by
  induction data with
  | nil => rfl
  | cons hd tl ih =>
      obtain ⟨dk, am⟩ := hd
      obtain ⟨k, rfl⟩ := h dk (by simp)
      have hne : DataKey.two d m ≠ DataKey.three k := by simp
      simp only [dlookup, if_neg hne]
      exact ih fun dk' hdk' => h dk' (by simp [hdk'])

theorem do_queries_allThree (ext : ExtWorld) (procErd : Option Char) (tc : Nat)
    (smart : Bool) (mapKeys : List Key) :
    allThree (do_queries ext procErd tc smart mapKeys).1 := by
  unfold do_queries
  apply allThree_computeEnd_fold
  apply allThree_query_fold
  intro dk hdk
  simp at hdk

/-! ### Claim C5 -/

/-- C5: constructing the processor over companies whose currencies differ,
with no explicit target currency, raises `UserError` at construction;
supplying a currency, or companies sharing one currency, always succeeds. -/
theorem init_mixed_currency_error (companies : List Company) :
    (aep_init companies none = Except.error () ↔
      ∃ c1 ∈ companies, ∃ c2 ∈ companies, c1.currency_id ≠ c2.currency_id) ∧
    (∀ cur : Nat, aep_init companies (some cur) = Except.ok [cur]) ∧
    ((∀ c1 ∈ companies, ∀ c2 ∈ companies, c1.currency_id = c2.currency_id) →
      ∃ l, aep_init companies none = Except.ok l) := by
  have key : 1 < ((companies.map Company.currency_id).dedup).length ↔
      ∃ c1 ∈ companies, ∃ c2 ∈ companies, c1.currency_id ≠ c2.currency_id := by
    rw [one_lt_dedup_iff]
    constructor
    · rintro ⟨a, ha, b, hb, hab⟩
      obtain ⟨c1, hc1, rfl⟩ := List.mem_map.mp ha
      obtain ⟨c2, hc2, rfl⟩ := List.mem_map.mp hb
      exact ⟨c1, hc1, c2, hc2, hab⟩
    · rintro ⟨c1, hc1, c2, hc2, hne⟩
      exact ⟨_, List.mem_map.mpr ⟨c1, hc1, rfl⟩, _, List.mem_map.mpr ⟨c2, hc2, rfl⟩, hne⟩
  refine ⟨?_, fun cur => rfl, ?_⟩
  · unfold aep_init
    by_cases h : 1 < ((companies.map Company.currency_id).dedup).length
    · simp only [if_pos h]
      exact ⟨fun _ => key.mp h, fun _ => by trivial⟩
    · simp only [if_neg h]
      exact ⟨fun he => absurd he (by simp), fun hex => absurd (key.mpr hex) h⟩
  · intro hall
    unfold aep_init
    have h : ¬ 1 < ((companies.map Company.currency_id).dedup).length := by
      rw [key]
      push_neg
      intro c1 hc1 c2 hc2
      exact hall c1 hc1 c2 hc2
    simp only [if_neg h]
    exact ⟨_, rfl⟩

/-- Witness for C5 at concrete inputs: two companies with currencies 10
and 20 raise; an explicit currency or equal currencies succeed. -/
theorem init_mixed_currency_error_witness :
    aep_init [⟨1, 10⟩, ⟨2, 20⟩] none = Except.error () ∧
    aep_init [⟨1, 10⟩, ⟨2, 20⟩] (some 5) = Except.ok [5] ∧
    ∃ l, aep_init [⟨1, 10⟩, ⟨2, 10⟩] none = Except.ok l :=
  ⟨(init_mixed_currency_error [⟨1, 10⟩, ⟨2, 20⟩]).1.mpr
      ⟨⟨1, 10⟩, by decide, ⟨2, 20⟩, by decide, by decide⟩,
    (init_mixed_currency_error [⟨1, 10⟩, ⟨2, 20⟩]).2.1 5,
    (init_mixed_currency_error [⟨1, 10⟩, ⟨2, 10⟩]).2.2 (by decide)⟩

/-! ### Claim C10 -/

/-- C10: the convenience balance class methods always return the empty
mapping and `get_unallocated_pl` the empty tuple: `_get_balances` reads
the result table at the 2-tuple key `((), mode)` while `do_queries` stored
every result under 3-tuple keys `(domain, mode, exchange_rate_date)`, so
the defaultdict lookup never finds a populated entry. -/
theorem get_balances_always_empty (ext : ExtWorld) (safeEvalD : List Char → Dom)
    (accounts : List Account) (company_ids : List Nat) (targetCur : Nat) (m : Mode) :
    get_balances_impl ext safeEvalD accounts company_ids targetCur m = [] ∧
    get_unallocated_pl ext safeEvalD accounts company_ids targetCur = [] := by
  have hmain : ∀ md : Mode,
      get_balances_impl ext safeEvalD accounts company_ids targetCur md = [] := by
    intro md
    unfold get_balances_impl
    split
    · rfl
    · dsimp only [dgetD]
      rw [dlookup_two_eq_none _ (do_queries_allThree _ _ _ _ _)]
      rfl
  refine ⟨hmain m, ?_⟩
  unfold get_unallocated_pl
  rw [hmain Mode.u]
  rfl

/-! ### Claim C4 -/

/-- C4: semantics of `get_aml_domain_for_dates` on an arbitrary move line
record: Variation selects `date_from ≤ date ≤ date_to`; Initial selects
`(date ≥ fiscal_year_start ∨ include_initial_balance) ∧ date < date_from`;
End the same lower bound with `date ≤ date_to`; Unallocated
`date < fiscal_year_start ∧ ¬include_initial_balance`; and the posted
condition is appended exactly when `target_move = 'posted'`. -/
theorem aml_domain_for_dates_semantics (fy date_from date_to : Nat) (target_move : String)
    (r : MLRecord) :
    (evalDomain r (get_aml_domain_for_dates fy date_from date_to Mode.p target_move) =
      ((decide (date_from ≤ r.date) && decide (r.date ≤ date_to)) &&
        (if target_move = "posted" then decide (r.state = "posted") else true))) ∧
    (evalDomain r (get_aml_domain_for_dates fy date_from date_to Mode.i target_move) =
      (((decide (fy ≤ r.date) || r.include_initial_balance) &&
          decide (r.date < date_from)) &&
        (if target_move = "posted" then decide (r.state = "posted") else true))) ∧
    (evalDomain r (get_aml_domain_for_dates fy date_from date_to Mode.e target_move) =
      (((decide (fy ≤ r.date) || r.include_initial_balance) &&
          decide (r.date ≤ date_to)) &&
        (if target_move = "posted" then decide (r.state = "posted") else true))) ∧
    (evalDomain r (get_aml_domain_for_dates fy date_from date_to Mode.u target_move) =
      ((decide (r.date < fy) && !r.include_initial_balance) &&
        (if target_move = "posted" then decide (r.state = "posted") else true))) ∧
    (∀ mode : Mode,
      (Term.cond (Cond.moveState "posted") ∈
          get_aml_domain_for_dates fy date_from date_to mode target_move) ↔
        target_move = "posted") := by
  refine ⟨?_, ?_, ?_, ?_, fun mode => ?_⟩
  · by_cases h : target_move = "posted" <;>
      simp [get_aml_domain_for_dates, normalize_domain, norm_step, evalDomain,
        evalTerms, evalCond, h]
  · by_cases h : target_move = "posted" <;>
      simp [get_aml_domain_for_dates, normalize_domain, norm_step, evalDomain,
        evalTerms, evalCond, h]
  · by_cases h : target_move = "posted" <;>
      simp [get_aml_domain_for_dates, normalize_domain, norm_step, evalDomain,
        evalTerms, evalCond, h]
  · by_cases h : target_move = "posted" <;>
      simp [get_aml_domain_for_dates, normalize_domain, norm_step, evalDomain,
        evalTerms, evalCond, h]
  · cases mode <;> by_cases h : target_move = "posted" <;>
      simp [get_aml_domain_for_dates, normalize_domain, norm_step, h]

/-! ### Claim C7 -/

/-- C7: under the daily exchange-rate policy the code groups by
`date_maturity` and converts each group at the maturity date's rate: on
the concrete world above it returns 20, whereas converting each record at
its own move-line date's rate (the documented behaviour, "d: daily rate of
move line date") yields 30. -/
theorem daily_rate_uses_maturity_date :
    dlookup (dgetD (do_queries ext7 (some 'd') 100 false [key7]).1
        (DataKey.three key7) []) 1 = some (some 20, some 0) ∧
    ((ext7.ledger key7).map fun l =>
        l.debit * (ext7.dailyRates 100 l.date / ext7.dailyRates l.company_currency_id l.date)).sum
      = 30 ∧
    (20 : ℚ) ≠ 30 := by
  refine ⟨?_, ?_, by norm_num⟩
  · norm_num [do_queries, query_step, query_am, key7, ext7, sqlGroupRows, process_daily_rows,
      float_is_zero_model, dgetD, dlookup, dinsert, aAdd, List.dedup_cons_of_mem,
      List.dedup_cons_of_not_mem]
  · norm_num [ext7, key7]

/-! ### Claim C6 -/

theorem accumulate_value_none (abc : ABC) (amap : AccMap) (field : String)
    (codes : List Code) (h : ∀ code ∈ codes, dgetD abc code [] = []) :
    accumulate_value abc amap field codes = none := by
  unfold accumulate_value
  have gen : ∀ (cs : List Code) (v : Option ℚ), (∀ code ∈ cs, dgetD abc code [] = []) →
      cs.foldl
        (fun v code =>
          (dgetD abc code []).foldl
            (fun v account_id =>
              let pr := (dlookup amap account_id).getD (none, none)
              if field = "bal" then aAdd v (aSub pr.1 pr.2)
              else if field = "deb" then aAdd v pr.1
              else aAdd v pr.2)
            v)
        v = v := by
    intro cs
    induction cs with
    | nil => intro v _; rfl
    | cons c rest ih =>
        intro v h
        simp only [List.foldl_cons, h c (by simp)]
        exact ih v fun code hc => h code (by simp [hc])
  exact gen codes none h

/-- C6: a selector matching no account resolves to the empty set without
error (shown for an unmatched `%` pattern and an unknown exact code), and
`replace_expr` renders a match whose selectors all resolve to empty sets
as `(AccountingNone)`, not as the number zero. -/
theorem empty_selector_resolution_and_rendering
    (accounts : List Account) (company_ids : List Nat) (c : List Char)
    (safeEvalD : List Char → Dom) (isZero : ℚ → ℚ → Bool)
    (abc : ABC) (data : Data) (dp : ℚ) (mo : MatchData) :
    ('%' ∈ c →
      accounts.filter (fun a => odooLike c a.code && a.company_id ∈ company_ids) = [] →
      dgetD (load_account_codes accounts company_ids [] [some c]) (some c) [] = []) ∧
    ('%' ∉ c →
      accounts.filter (fun a => a.code = c && a.company_id ∈ company_ids) = [] →
      dgetD (load_account_codes accounts company_ids [] [some c]) (some c) [] = []) ∧
    ((∀ code ∈ (parse_match_object safeEvalD mo).codes, dgetD abc code [] = []) →
      replace_f safeEvalD isZero abc data dp mo = String.toList "(AccountingNone)") := by
  refine ⟨?_, ?_, ?_⟩
  · intro hpct hfil
    unfold load_account_codes load_code_step
    simp only [List.foldl_cons, List.foldl_nil, dlookup_nil, Option.isSome_none,
      Bool.false_eq_true, if_false, if_pos hpct, hfil]
    have h2 : accounts.filter
        (fun a => decide (a.code ∈ ([] : List (List Char))) && decide (a.company_id ∈ company_ids))
          = [] := by simp
    simp only [h2, List.map_nil, List.foldl_nil, dgetD, dlookup_dinsert, Option.getD_some]
  · intro hpct hfil
    unfold load_account_codes load_code_step
    simp only [List.foldl_cons, List.foldl_nil, dlookup_nil, Option.isSome_none,
      Bool.false_eq_true, if_false, if_neg hpct]
    simp [hfil, dgetD]
  · intro hres
    unfold replace_f
    dsimp only
    rw [accumulate_value_none _ _ _ _ hres]
    rfl

/-- Witness for C6: account store holding only account 200 of company 1;
the pattern `1%` and the exact code `999` resolve to nothing, and a `crd`
match over `1%` renders as `(AccountingNone)`. -/
theorem empty_selector_resolution_witness :
    dgetD (load_account_codes [⟨1, String.toList "200", 1⟩] [1] []
        [some (String.toList "1%")]) (some (String.toList "1%")) [] = [] ∧
    dgetD (load_account_codes [⟨1, String.toList "200", 1⟩] [1] []
        [some (String.toList "999")]) (some (String.toList "999")) [] = [] ∧
    replace_f (fun _ => []) float_is_zero_model [] [] 1
        ⟨"crd", none, String.toList "[1%]", none, none⟩ =
      String.toList "(AccountingNone)" := by
  refine ⟨?_, ?_, ?_⟩
  · exact (empty_selector_resolution_and_rendering [⟨1, String.toList "200", 1⟩] [1]
      (String.toList "1%") (fun _ => []) float_is_zero_model [] [] 1
      ⟨"crd", none, String.toList "[1%]", none, none⟩).1 (by decide) (by decide)
  · exact (empty_selector_resolution_and_rendering [⟨1, String.toList "200", 1⟩] [1]
      (String.toList "999") (fun _ => []) float_is_zero_model [] [] 1
      ⟨"crd", none, String.toList "[1%]", none, none⟩).2.1 (by decide) (by decide)
  · exact (empty_selector_resolution_and_rendering [⟨1, String.toList "200", 1⟩] [1]
      (String.toList "1%") (fun _ => []) float_is_zero_model [] [] 1
      ⟨"crd", none, String.toList "[1%]", none, none⟩).2.2 (by decide)

/-! ### Claim C9 -/

theorem subAux_id_of_no_match (f : MatchData → List Char) :
    ∀ (s : List Char) (prev : Option Char) (fuel : Nat),
      hasMatchAux prev s = false → s.length ≤ fuel → subAux f fuel prev s = s := by
  intro s
  induction s with
  | nil =>
      intro prev fuel h hf
      cases fuel <;> rfl
  | cons c rest ih =>
      intro prev fuel h hf
      match fuel, hf with
      | fuel + 1, hf =>
          unfold hasMatchAux at h
          rw [Bool.or_eq_false_iff] at h
          obtain ⟨h1, h2⟩ := h
          have h1' : matchAt prev (c :: rest) = none := by
            cases hm : matchAt prev (c :: rest) with
            | none => rfl
            | some val => rw [hm] at h1; simp at h1
          unfold subAux
          rw [h1']
          dsimp only
          have : rest.length ≤ fuel := by
            simpa [Nat.succ_le_succ_iff] using hf
          rw [ih (some c) fuel h2 this]

/-- C9 (amended): `replace_expr` is the identity on every input with no
accounting-variable match, and hence a second application is a no-op
whenever the first pass's output contains no remaining match.  (Global
idempotence fails: substitution can unmask a match previously blocked by a
word boundary — see the counterexample.) -/
theorem replace_expr_identity_no_match (safeEvalD : List Char → Dom)
    (isZero : ℚ → ℚ → Bool) (abc : ABC) (data : Data) (dp : ℚ) (s : List Char) :
    (has_account_var s = false → replace_expr safeEvalD isZero abc data dp s = s) ∧
    (has_account_var (replace_expr safeEvalD isZero abc data dp s) = false →
      replace_expr safeEvalD isZero abc data dp
          (replace_expr safeEvalD isZero abc data dp s) =
        replace_expr safeEvalD isZero abc data dp s) := by
  have base : ∀ t : List Char, has_account_var t = false →
      replace_expr safeEvalD isZero abc data dp t = t := fun t ht =>
    subAux_id_of_no_match _ t none t.length ht le_rfl
  exact ⟨base s, fun h2 => base _ h2⟩

/-- Witness for C9 (amended) on a concrete match-free input. -/
theorem replace_expr_identity_no_match_witness :
    replace_expr (fun _ => []) float_is_zero_model [] [] 1
        (String.toList "no accounting vars") =
      String.toList "no accounting vars" :=
  (replace_expr_identity_no_match (fun _ => []) float_is_zero_model [] [] 1
      (String.toList "no accounting vars")).1 (by decide)

/-- C9 counterexample: on `"bal[70]sbal[60]"` the first pass consumes
`bal[70]s` (the trailing `s` as the rate-date hint), leaving `bal[60]`
blocked only by the word boundary with `s`; the substituted text ends in
`)` so the second pass matches and rewrites it — `replace_expr` applied
twice differs from `replace_expr` applied once. -/
theorem replace_expr_not_idempotent :
    has_account_var (replace_expr (fun _ => []) float_is_zero_model [] [] 1
        (String.toList "bal[70]sbal[60]")) = true ∧
    replace_expr (fun _ => []) float_is_zero_model [] [] 1
        (replace_expr (fun _ => []) float_is_zero_model [] [] 1
          (String.toList "bal[70]sbal[60]")) ≠
      replace_expr (fun _ => []) float_is_zero_model [] [] 1
        (String.toList "bal[70]sbal[60]") := by
  refine ⟨by decide, by decide⟩

/-! ### Claim C8 -/

theorem dlookup_mem_keys {α β : Type} [DecidableEq α] (m : List (α × β)) (k : α) (v : β)
    (h : dlookup m k = some v) : k ∈ m.map Prod.fst := by
  induction m with
  | nil => simp at h
  | cons hd tl ih =>
      obtain ⟨k₀, v₀⟩ := hd
      by_cases hk : k = k₀
      · simp [hk]
      · rw [dlookup_cons, if_neg hk] at h
        simp [ih h]

theorem done_fold_finalizes (accounts : List Account) (cids : List Nat) :
    ∀ (pending : List (Key × MapVal)) (st : KeyMap × ABC),
      (∀ k v, dlookup st.1 k = some v →
        (∃ l, v = MapVal.ids l) ∨ k ∈ pending.map Prod.fst) →
      ∀ k v, dlookup (pending.foldl (done_key_step accounts cids) st).1 k = some v →
        ∃ l, v = MapVal.ids l := by
  intro pending
  induction pending with
  | nil =>
      intro st h k v hl
      rcases h k v hl with h' | h'
      · exact h'
      · simp at h'
  | cons e rest ih =>
      intro st h k v hl
      obtain ⟨k₀, v₀⟩ := e
      refine ih (done_key_step accounts cids st (k₀, v₀)) ?_ k v hl
      intro k' v' hl'
      have hone : ∀ ids' : List Nat,
          dlookup (dinsert st.1 k₀ (MapVal.ids ids')) k' = some v' →
          (∃ l, v' = MapVal.ids l) ∨ k' ∈ (rest.map Prod.fst) := by
        intro ids' hin
        by_cases hk : k' = k₀
        · subst hk
          rw [dlookup_dinsert] at hin
          exact Or.inl ⟨ids', by injection hin with h; exact h.symm⟩
        · rw [dlookup_dinsert_ne _ _ _ _ hk] at hin
          rcases h k' v' hin with h' | h'
          · exact Or.inl h'
          · simp only [List.map_cons, List.mem_cons] at h'
            rcases h' with h' | h'
            · exact absurd h' hk
            · exact Or.inr h'
      unfold done_key_step at hl'
      cases v₀ with
      | codes cs => exact hone _ hl'
      | ids l => exact hone _ hl'

/-- C8 (amended): after `done_parsing` every key's pending selector set
has been replaced by a finalized account id list; a later `parse_expr`
registration hitting a finalized (existing) key fails with an error
(`list` has no `update`), but a registration whose key is new silently
appends a fresh pending set to the supposedly finalized map. -/
theorem parse_after_done_behavior (m : KeyMap) (k : Key) (codes : List Code) :
    (∀ l, dlookup m k = some (MapVal.ids l) → map_update m k codes = Except.error ()) ∧
    (dlookup m k = none →
      map_update m k codes = Except.ok (m ++ [(k, MapVal.codes codes)])) ∧
    (∀ (accounts : List Account) (cids : List Nat) (st : KeyMap × ABC) (k' : Key) (v : MapVal),
      dlookup (done_parsing accounts cids st).1 k' = some v → ∃ l, v = MapVal.ids l) := by
  refine ⟨?_, ?_, ?_⟩
  · intro l hl
    unfold map_update
    rw [hl]
  · intro hl
    unfold map_update
    rw [hl]
  · intro accounts cids st k' v hv
    refine done_fold_finalizes accounts cids st.1 st ?_ k' v hv
    intro k₀ v₀ h₀
    exact Or.inr (dlookup_mem_keys _ _ _ h₀)

/-- Witness for C8 (amended) at concrete inputs. -/
theorem parse_after_done_behavior_witness :
    map_update m_final ⟨[], Mode.p, none⟩ [some ['7', '0']] = Except.error () ∧
    map_update m_final ⟨[], Mode.i, none⟩ [some ['7', '0']] =
      Except.ok (m_final ++ [(⟨[], Mode.i, none⟩, MapVal.codes [some ['7', '0']])]) ∧
    ∃ l, dlookup m_final ⟨[], Mode.p, none⟩ = some (MapVal.ids l) := by
  refine ⟨?_, ?_, ?_⟩
  · exact (parse_after_done_behavior m_final ⟨[], Mode.p, none⟩ [some ['7', '0']]).1 []
      (by decide)
  · exact (parse_after_done_behavior m_final ⟨[], Mode.i, none⟩ [some ['7', '0']]).2.1
      (by decide)
  · exact ⟨[], by decide⟩

/-- C8 counterexample: with the finalized map obtained from registering
`bal[70]` and calling `done_parsing`, parsing `bali[70]` — whose key
`((), 'i', None)` is new — does not fail: it silently extends the
finalized map with a fresh pending selector set. -/
theorem parse_after_done_new_key_no_error :
    parse_expr sed0 true m_final (String.toList "bali[70]") =
      Except.ok (m_final ++ [(⟨[], Mode.i, none⟩, MapVal.codes [some ['7', '0']])]) ∧
    ∀ e : Unit, parse_expr sed0 true m_final (String.toList "bali[70]") ≠ Except.error e := by
  have h1 : parse_expr sed0 true m_final (String.toList "bali[70]") =
      Except.ok (m_final ++ [(⟨[], Mode.i, none⟩, MapVal.codes [some ['7', '0']])]) := rfl
  refine ⟨h1, fun e hc => ?_⟩
  rw [h1] at hc
  exact Except.noConfusion hc

/-! ### Claim C3 -/

theorem foldl_dinsert_preserve {α β : Type} [DecidableEq α] (f : α → β) (ids : List α)
    (init : List (α × β)) (a : α) (ha : a ∉ ids) :
    dlookup (ids.foldl (fun am x => dinsert am x (f x)) init) a = dlookup init a := by
  induction ids generalizing init with
  | nil => rfl
  | cons y ys ih =>
      simp only [List.mem_cons] at ha
      push_neg at ha
      simp only [List.foldl_cons]
      rw [ih _ ha.2, dlookup_dinsert_ne _ _ _ _ ha.1]

theorem foldl_dinsert_lookup {α β : Type} [DecidableEq α] (f : α → β) (ids : List α)
    (init : List (α × β)) (a : α) (hnd : ids.Nodup) (ha : a ∈ ids) :
    dlookup (ids.foldl (fun am x => dinsert am x (f x)) init) a = some (f a) := by
  induction ids generalizing init with
  | nil => simp at ha
  | cons x rest ih =>
      rcases List.mem_cons.mp ha with h | h
      · subst h
        simp only [List.foldl_cons]
        rw [foldl_dinsert_preserve f rest _ a (List.nodup_cons.mp hnd).1, dlookup_dinsert]
      · simp only [List.foldl_cons]
        exact ih _ (List.nodup_cons.mp hnd).2 h

theorem process_fold_preserve (isZero : ℚ → ℚ → Bool) (crates : Nat → ℚ × ℚ) (mode : Mode)
    (rows : List RGRow) (am : AccMap) (a : Nat) (ha : a ∉ rows.map RGRow.account_id) :
    dlookup (rows.foldl (process_row_step isZero crates mode) am) a = dlookup am a := by
  induction rows generalizing am with
  | nil => rfl
  | cons r rest ih =>
      simp only [List.map_cons, List.mem_cons] at ha
      push_neg at ha
      simp only [List.foldl_cons]
      rw [ih _ ha.2]
      unfold process_row_step
      dsimp only
      split
      · rfl
      · exact dlookup_dinsert_ne _ _ _ _ ha.1

theorem process_rows_lookup (isZero : ℚ → ℚ → Bool) (crates : Nat → ℚ × ℚ) (mode : Mode)
    (rows : List RGRow) (hnd : (rows.map RGRow.account_id).Nodup) (row : RGRow)
    (hrow : row ∈ rows) (am : AccMap) :
    dlookup (rows.foldl (process_row_step isZero crates mode) am) row.account_id =
      if (mode = Mode.i ∨ mode = Mode.u) ∧
          isZero (row.debit - row.credit) (crates row.company_id).2 = true
      then dlookup am row.account_id
      else some (some (row.debit * (crates row.company_id).1),
        some (row.credit * (crates row.company_id).1)) := by
  induction rows generalizing am with
  | nil => simp at hrow
  | cons r rest ih =>
      simp only [List.map_cons, List.nodup_cons] at hnd
      rcases List.mem_cons.mp hrow with h | h
      · subst h
        simp only [List.foldl_cons]
        rw [process_fold_preserve _ _ _ _ _ _ hnd.1]
        unfold process_row_step
        dsimp only
        split
        · rfl
        · exact dlookup_dinsert _ _ _
      · have hne : r.account_id ≠ row.account_id := by
          intro he
          exact hnd.1 (he ▸ List.mem_map_of_mem RGRow.account_id h)
        simp only [List.foldl_cons]
        rw [ih hnd.2 h]
        by_cases hcond : (mode = Mode.i ∨ mode = Mode.u) ∧
            isZero (row.debit - row.credit) (crates row.company_id).2 = true
        · rw [if_pos hcond, if_pos hcond]
          unfold process_row_step
          dsimp only
          split
          · rfl
          · exact dlookup_dinsert_ne _ _ _ _ (Ne.symm hne)
        · rw [if_neg hcond, if_neg hcond]

theorem query_fold_preserve (ext : ExtWorld) (procErd : Option Char) (tc : Nat) (smart : Bool)
    (keys : List Key) (st : Data × List Key × Nat) (dk : DataKey)
    (h : ∀ k ∈ keys, dk ≠ DataKey.three k) :
    dlookup (keys.foldl (query_step ext procErd tc smart) st).1 dk = dlookup st.1 dk := by
  induction keys generalizing st with
  | nil => rfl
  | cons k rest ih =>
      simp only [List.foldl_cons]
      rw [ih _ fun k' hk' => h k' (List.mem_cons_of_mem _ hk')]
      obtain ⟨data, ends, n⟩ := st
      unfold query_step
      dsimp only
      split
      · rfl
      · exact dlookup_dinsert_ne _ _ _ _ (h k (List.mem_cons_self _ _))

theorem query_fold_lookup (ext : ExtWorld) (procErd : Option Char) (tc : Nat) (smart : Bool)
    (keys : List Key) (st : Data × List Key × Nat) (key : Key) (hnd : keys.Nodup)
    (hk : key ∈ keys) (hndef : ¬(key.mode = Mode.e ∧ smart = true)) :
    dlookup (keys.foldl (query_step ext procErd tc smart) st).1 (DataKey.three key) =
      some (query_am ext procErd tc key) := by
  induction keys generalizing st with
  | nil => simp at hk
  | cons k rest ih =>
      rcases List.mem_cons.mp hk with h | h
  
      · subst h
        simp only [List.foldl_cons]
        have hnot : key ∉ rest := (List.nodup_cons.mp hnd).1
        rw [query_fold_preserve _ _ _ _ _ _ _
          (fun k' hk' he => hnot (by rw [DataKey.three.injEq] at he; exact he ▸ hk'))]
        obtain ⟨data, ends, n⟩ := st
        unfold query_step
        dsimp only
        rw [if_neg hndef]
        exact dlookup_dinsert _ _ _
      · simp only [List.foldl_cons]
        exact ih _ (List.nodup_cons.mp hnd).2 h

theorem query_fold_ends (ext : ExtWorld) (procErd : Option Char) (tc : Nat) (smart : Bool)
    (keys : List Key) (st : Data × List Key × Nat) :
    (keys.foldl (query_step ext procErd tc smart) st).2.1 =
      st.2.1 ++ keys.filter (fun k => decide (k.mode = Mode.e ∧ smart = true)) := by
  induction keys generalizing st with
  | nil => simp
  | cons k rest ih =>
      simp only [List.foldl_cons]
      rw [ih]
      obtain ⟨data, ends, n⟩ := st
      unfold query_step
      dsimp only
      by_cases hc : k.mode = Mode.e ∧ smart = true
      · rw [if_pos hc]
        simp [List.filter_cons, hc]
      · rw [if_neg hc]
        simp [List.filter_cons, hc]

theorem computeEnd_fold_preserve (ends : List Key) (data : Data) (dk : DataKey)
    (h : ∀ k ∈ ends, dk ≠ DataKey.three k) :
    dlookup (ends.foldl computeEnd data) dk = dlookup data dk := by
  induction ends generalizing data with
  | nil => rfl
  | cons k rest ih =>
      simp only [List.foldl_cons]
      rw [ih _ fun k' hk' => h k' (List.mem_cons_of_mem _ hk')]
      unfold computeEnd
      exact dlookup_dinsert_ne _ _ _ _ (h k (List.mem_cons_self _ _))

/-- Lookup of a non-deferred key's result table in the final `_data`. -/
theorem do_queries_lookup_nondeferred (ext : ExtWorld) (procErd : Option Char) (tc : Nat)
    (smart : Bool) (mapKeys : List Key) (hnd : mapKeys.Nodup) (key : Key)
    (hk : key ∈ mapKeys) (hndef : ¬(key.mode = Mode.e ∧ smart = true)) :
    dlookup (do_queries ext procErd tc smart mapKeys).1 (DataKey.three key) =
      some (query_am ext procErd tc key) := by
  unfold do_queries
  dsimp only
  rw [computeEnd_fold_preserve]
  · exact query_fold_lookup ext procErd tc smart mapKeys _ key hnd hk hndef
  · intro k hkends he
    rw [query_fold_ends] at hkends
    simp only [List.nil_append, List.mem_filter, decide_eq_true_eq] at hkends
    rw [DataKey.three.injEq] at he
    exact hndef (he ▸ hkends.2)

/-- C3 (amended): in `do_queries`, for every `read_group` result row of a
non-deferred key (one row per account), the zero test is applied to the
raw, pre-conversion `debit - credit` at the owning company's currency
precision: if it is flagged zero and the key's mode is Initial or
Unallocated the row is omitted entirely (the account is absent); under
Variation or End the row is always retained as an explicit entry with the
converted amounts.  (The daily-rate path applies the same pre-conversion
test to its grouped rows.) -/
theorem zero_suppression_mode_dependent (ext : ExtWorld) (procErd : Option Char) (tc : Nat)
    (smart : Bool) (mapKeys : List Key) (hnd : mapKeys.Nodup) (key : Key)
    (hk : key ∈ mapKeys) (hndef : ¬(key.mode = Mode.e ∧ smart = true))
    (hday : ¬procErd = some 'd')
    (hrownd : ((ext.readGroup key).map RGRow.account_id).Nodup)
    (row : RGRow) (hrow : row ∈ ext.readGroup key) :
    ((key.mode = Mode.i ∨ key.mode = Mode.u) →
      ext.isZero (row.debit - row.credit) (ext.ratesFor key.erd row.company_id).2 = true →
      dlookup (dgetD (do_queries ext procErd tc smart mapKeys).1 (DataKey.three key) [])
        row.account_id = none) ∧
    ((key.mode = Mode.p ∨ key.mode = Mode.e) →
      dlookup (dgetD (do_queries ext procErd tc smart mapKeys).1 (DataKey.three key) [])
        row.account_id =
      some (some (row.debit * (ext.ratesFor key.erd row.company_id).1),
        some (row.credit * (ext.ratesFor key.erd row.company_id).1))) := by
  have hbase : dgetD (do_queries ext procErd tc smart mapKeys).1 (DataKey.three key) [] =
      query_am ext procErd tc key := by
    unfold dgetD
    rw [do_queries_lookup_nondeferred ext procErd tc smart mapKeys hnd key hk hndef]
    rfl
  have hq : query_am ext procErd tc key =
      process_rows ext.isZero (ext.ratesFor key.erd) key.mode (ext.readGroup key) := by
    unfold query_am
    rw [if_neg hday]
  rw [hbase, hq]
  unfold process_rows
  rw [process_rows_lookup ext.isZero (ext.ratesFor key.erd) key.mode (ext.readGroup key)
    hrownd row hrow []]
  constructor
  · intro hmode hz
    rw [if_pos ⟨hmode, hz⟩]
    rfl
  · intro hmode
    rw [if_neg]
    rintro ⟨hm, _⟩
    rcases hmode with hp | he
    · rcases hm with h' | h' <;> simp [hp] at h'
    · rcases hm with h' | h' <;> simp [he] at h'

/-- C3 counterexample to the claim as stated: the row's converted
`debit - credit` rounds to zero at the company's precision, the mode is
Initial — yet the account is present in the result table, because the
code applies the zero test before conversion. -/
theorem zero_suppression_converted_counterexample :
    float_is_zero_model (((100 : ℚ) - 0) * (ext3.ratesFor none 1).1)
        (ext3.ratesFor none 1).2 = true ∧
    float_is_zero_model ((100 : ℚ) - 0) (ext3.ratesFor none 1).2 = false ∧
    (dlookup (dgetD (do_queries ext3 none 100 false [key3]).1 (DataKey.three key3) [])
        1).isSome = true := by
  refine ⟨?_, ?_, ?_⟩
  · simp only [float_is_zero_model, ext3, decide_eq_true_eq]
    rw [abs_of_nonneg (by norm_num)]
    norm_num
  · simp only [float_is_zero_model, ext3, decide_eq_false_iff_not]
    rw [abs_of_nonneg (by norm_num)]
    norm_num
  · norm_num [do_queries, query_step, query_am, process_rows, process_row_step, ext3, key3,
      float_is_zero_model, dgetD, dlookup, dinsert]

/-- Witness for C3 (amended): a raw zero balance under Initial mode is
suppressed, and the same zero balance under Variation mode is retained. -/
theorem zero_suppression_mode_dependent_witness :
    dlookup (dgetD (do_queries ext3w none 100 false [⟨[], Mode.i, none⟩]).1
        (DataKey.three ⟨[], Mode.i, none⟩) []) 1 = none ∧
    dlookup (dgetD (do_queries ext3w none 100 false [⟨[], Mode.p, none⟩]).1
        (DataKey.three ⟨[], Mode.p, none⟩) []) 1 =
      some (some ((5 : ℚ) * 1), some ((5 : ℚ) * 1)) := by
  constructor
  · exact (zero_suppression_mode_dependent ext3w none 100 false [⟨[], Mode.i, none⟩]
      (by decide) ⟨[], Mode.i, none⟩ (by decide) (by decide) (by decide) (by decide)
      ⟨1, 1, 5, 5⟩ (by decide)).1 (Or.inl rfl) (by norm_num [ext3w, float_is_zero_model])
  · exact (zero_suppression_mode_dependent ext3w none 100 false [⟨[], Mode.p, none⟩]
      (by decide) ⟨[], Mode.p, none⟩ (by decide) (by decide) (by decide) (by decide)
      ⟨1, 1, 5, 5⟩ (by decide)).2 (Or.inl rfl)

/-! ### Claim C1 -/

theorem end_reads_unchanged (data : Data) (e : Key) (he : e.mode = Mode.e) (am : AccMap)
    (key : Key) (md : Mode) (hmd : md ≠ Mode.e) :
    dgetD (dinsert data (DataKey.three e) am) (DataKey.three ⟨key.dom, md, key.erd⟩) [] =
      dgetD data (DataKey.three ⟨key.dom, md, key.erd⟩) [] := by
  unfold dgetD
  rw [dlookup_dinsert_ne]
  intro hcontra
  rw [DataKey.three.injEq] at hcontra
  apply hmd
  have : (⟨key.dom, md, key.erd⟩ : Key).mode = e.mode := by rw [hcontra]
  rw [he] at this
  exact this

theorem computeEnd_fold_lookup (ends : List Key) (data : Data) (key : Key)
    (hnd : ends.Nodup) (hall : ∀ k ∈ ends, k.mode = Mode.e) (hk : key ∈ ends) (a : Nat)
    (ha : a ∈ end_ids data key) :
    dlookup (dgetD (ends.foldl computeEnd data) (DataKey.three key) []) a =
      some (end_value data key a) := by
  induction ends generalizing data with
  | nil => simp at hk
  | cons e rest ih =>
      rcases List.mem_cons.mp hk with h | h
      · subst h
        simp only [List.foldl_cons]
        have hnot : key ∉ rest := (List.nodup_cons.mp hnd).1
        have hpres : dlookup (rest.foldl computeEnd (computeEnd data key)) (DataKey.three key)
            = dlookup (computeEnd data key) (DataKey.three key) :=
          computeEnd_fold_preserve rest _ _
            (fun k' hk' he => hnot (by rw [DataKey.three.injEq] at he; exact he ▸ hk'))
        unfold dgetD
        rw [hpres]
        show dlookup ((dlookup (computeEnd data key) (DataKey.three key)).getD []) a = _
        unfold computeEnd
        rw [dlookup_dinsert]
        exact foldl_dinsert_lookup (end_value data key) (end_ids data key) _ a
          (List.nodup_dedup _) ha
      · simp only [List.foldl_cons]
        have he : e.mode = Mode.e := hall e (List.mem_cons_self _ _)
        have heq_i : dgetD (computeEnd data e) (DataKey.three ⟨key.dom, Mode.i, key.erd⟩) []
            = dgetD data (DataKey.three ⟨key.dom, Mode.i, key.erd⟩) [] := by
          unfold computeEnd
          exact end_reads_unchanged data e he _ key Mode.i (by decide)
        have heq_p : dgetD (computeEnd data e) (DataKey.three ⟨key.dom, Mode.p, key.erd⟩) []
            = dgetD data (DataKey.three ⟨key.dom, Mode.p, key.erd⟩) [] := by
          unfold computeEnd
          exact end_reads_unchanged data e he _ key Mode.p (by decide)
        have hids : end_ids (computeEnd data e) key = end_ids data key := by
          unfold end_ids
          rw [heq_i, heq_p]
        have hval : end_value (computeEnd data e) key a = end_value data key a := by
          unfold end_value
          rw [heq_i, heq_p]
        rw [← hval]
        exact ih (computeEnd data e) (List.nodup_cons.mp hnd).2
          (fun k' hk' => hall k' (List.mem_cons_of_mem _ hk')) h (by rw [hids]; exact ha)

/-- C1: under smart-end mode, for every deferred end key, the final result
table's End entry of every account appearing in the Initial or Variation
result for the same domain and rate-date equals
`Initial(account) + Variation(account)` componentwise on (debit, credit)
in three-valued `AccountingNone` arithmetic (`end_value` is exactly that
sum, with `AccountingNone` defaults for a missing side). -/
theorem smart_end_derives_initial_plus_variation (ext : ExtWorld) (procErd : Option Char)
    (tc : Nat) (mapKeys : List Key) (hnd : mapKeys.Nodup) (d : Dom) (erd : Option Char)
    (hk : (⟨d, Mode.e, erd⟩ : Key) ∈ mapKeys) (a : Nat)
    (ha : a ∈ end_ids (do_queries ext procErd tc true mapKeys).1 ⟨d, Mode.e, erd⟩) :
    dlookup (dgetD (do_queries ext procErd tc true mapKeys).1
        (DataKey.three ⟨d, Mode.e, erd⟩) []) a =
      some (end_value (do_queries ext procErd tc true mapKeys).1 ⟨d, Mode.e, erd⟩ a) := by
  have hends : (mapKeys.foldl (query_step ext procErd tc true) ([], [], 0)).2.1 =
      mapKeys.filter (fun k => decide (k.mode = Mode.e ∧ true = true)) := by
    rw [query_fold_ends]
    rfl
  have hfinal : (do_queries ext procErd tc true mapKeys).1 =
      (mapKeys.filter (fun k => decide (k.mode = Mode.e ∧ true = true))).foldl computeEnd
        (mapKeys.foldl (query_step ext procErd tc true) ([], [], 0)).1 := by
    unfold do_queries
    dsimp only
    rw [hends]
  have hall : ∀ k ∈ mapKeys.filter (fun k => decide (k.mode = Mode.e ∧ true = true)),
      k.mode = Mode.e := by
    intro k hkf
    have := (List.mem_filter.mp hkf).2
    simp at this
    exact this
  have hndf : (mapKeys.filter (fun k => decide (k.mode = Mode.e ∧ true = true))).Nodup :=
    hnd.filter _
  have hkf : (⟨d, Mode.e, erd⟩ : Key) ∈
      mapKeys.filter (fun k => decide (k.mode = Mode.e ∧ true = true)) :=
    List.mem_filter.mpr ⟨hk, by simp⟩
  have hpres_i : dgetD ((mapKeys.filter
        (fun k => decide (k.mode = Mode.e ∧ true = true))).foldl computeEnd
        (mapKeys.foldl (query_step ext procErd tc true) ([], [], 0)).1)
        (DataKey.three ⟨d, Mode.i, erd⟩) [] =
      dgetD (mapKeys.foldl (query_step ext procErd tc true) ([], [], 0)).1
        (DataKey.three ⟨d, Mode.i, erd⟩) [] := by
    unfold dgetD
    rw [computeEnd_fold_preserve]
    intro k hkm he
    have := hall k hkm
    rw [DataKey.three.injEq] at he
    rw [← he] at this
    exact Mode.noConfusion this
  have hpres_p : dgetD ((mapKeys.filter
        (fun k => decide (k.mode = Mode.e ∧ true = true))).foldl computeEnd
        (mapKeys.foldl (query_step ext procErd tc true) ([], [], 0)).1)
        (DataKey.three ⟨d, Mode.p, erd⟩) [] =
      dgetD (mapKeys.foldl (query_step ext procErd tc true) ([], [], 0)).1
        (DataKey.three ⟨d, Mode.p, erd⟩) [] := by
    unfold dgetD
    rw [computeEnd_fold_preserve]
    intro k hkm he
    have := hall k hkm
    rw [DataKey.three.injEq] at he
    rw [← he] at this
    exact Mode.noConfusion this
  have hids : end_ids (do_queries ext procErd tc true mapKeys).1 ⟨d, Mode.e, erd⟩ =
      end_ids (mapKeys.foldl (query_step ext procErd tc true) ([], [], 0)).1
        ⟨d, Mode.e, erd⟩ := by
    unfold end_ids
    rw [hfinal]
    rw [hpres_i, hpres_p]
  have hval : end_value (do_queries ext procErd tc true mapKeys).1 ⟨d, Mode.e, erd⟩ a =
      end_value (mapKeys.foldl (query_step ext procErd tc true) ([], [], 0)).1
        ⟨d, Mode.e, erd⟩ a := by
    unfold end_value
    rw [hfinal]
    rw [hpres_i, hpres_p]
  rw [hval, hfinal]
  exact computeEnd_fold_lookup _ _ _ hndf hall hkf a (by rw [← hids]; exact ha)

/-- Witness for C1 on the concrete world above. -/
theorem smart_end_derives_initial_plus_variation_witness :
    dlookup (dgetD (do_queries ext1 none 100 true keys1).1
        (DataKey.three ⟨[], Mode.e, none⟩) []) 1 =
      some (end_value (do_queries ext1 none 100 true keys1).1 ⟨[], Mode.e, none⟩ 1) :=
  smart_end_derives_initial_plus_variation ext1 none 100 keys1 (by decide) [] none
    (by decide) 1 (by decide)

/-! ### Claim C2 -/

theorem dlookup_mem_pair {α β : Type} [DecidableEq α] (m : List (α × β)) (k : α) (v : β)
    (h : dlookup m k = some v) : (k, v) ∈ m := by
  induction m with
  | nil => simp at h
  | cons hd tl ih =>
      obtain ⟨k₀, v₀⟩ := hd
      by_cases hk : k = k₀
      · subst hk
        rw [dlookup_cons, if_pos rfl] at h
        injection h with h
        simp [h]
      · rw [dlookup_cons, if_neg hk] at h
        simp [ih h]

theorem dlookup_append {α β : Type} [DecidableEq α] (m l : List (α × β)) (k : α) :
    dlookup (m ++ l) k =
      match dlookup m k with
      | some v => some v
      | none => dlookup l k := by
  induction m with
  | nil => simp
  | cons hd tl ih =>
      obtain ⟨k₀, v₀⟩ := hd
      by_cases hk : k = k₀ <;> simp [dlookup_cons, hk, ih]

theorem dlookup_isSome_of_mem_keys {α β : Type} [DecidableEq α] (m : List (α × β)) (k : α)
    (h : k ∈ m.map Prod.fst) : (dlookup m k).isSome := by
  induction m with
  | nil => simp at h
  | cons hd tl ih =>
      obtain ⟨k₀, v₀⟩ := hd
      by_cases hk : k = k₀
      · simp [dlookup_cons, hk]
      · simp only [List.map_cons, List.mem_cons] at h
        rcases h with h | h
        · exact absurd h hk
        · simp [dlookup_cons, hk, ih h]

theorem mem_dinsert {α β : Type} [DecidableEq α] (m : List (α × β)) (k : α) (v : β)
    (kv : α × β) : kv ∈ dinsert m k v → kv ∈ m ∨ kv = (k, v) := by
  induction m with
  | nil =>
      intro h
      simp only [dinsert, List.mem_singleton] at h
      exact Or.inr h
  | cons hd tl ih =>
      obtain ⟨k₀, v₀⟩ := hd
      by_cases hk : k = k₀
      · subst hk
        intro h
        simp only [dinsert, if_pos rfl, if_true, eq_self_iff_true, List.mem_cons] at h
        rcases h with h | h
        · exact Or.inr h
        · exact Or.inl (List.mem_cons_of_mem _ h)
      · intro h
        simp only [dinsert, if_neg hk, List.mem_cons] at h
        rcases h with h | h
        · exact Or.inl (h ▸ List.mem_cons_self _ _)
        · rcases ih h with h' | h'
          · exact Or.inl (List.mem_cons_of_mem _ h')
          · exact Or.inr h'

theorem apply_updates_append (m : KeyMap) (us₁ us₂ : List (Key × List Code)) :
    apply_updates m (us₁ ++ us₂) =
      match apply_updates m us₁ with
      | Except.ok m' => apply_updates m' us₂
      | Except.error e => Except.error e := by
  induction us₁ generalizing m with
  | nil => rfl
  | cons u rest ih =>
      obtain ⟨k, cs⟩ := u
      show (match map_update m k cs with
          | Except.ok m'' => apply_updates m'' (rest ++ us₂)
          | Except.error e => Except.error e) =
        match (match map_update m k cs with
            | Except.ok m'' => apply_updates m'' rest
            | Except.error e => Except.error e) with
          | Except.ok m' => apply_updates m' us₂
          | Except.error e => Except.error e
      cases hmu : map_update m k cs with
      | ok m' =>
          simp only [hmu]
          exact ih m'
      | error e => simp only [hmu]

theorem register_fold_error (safeEvalD : List Char → Dom) (smart : Bool)
    (es : List (List Char)) (err : Unit) :
    es.foldl
      (fun acc e =>
        match acc with
        | Except.ok m => parse_expr safeEvalD smart m e
        | Except.error err => Except.error err)
      (Except.error err) = Except.error err := by
  induction es with
  | nil => rfl
  | cons e rest ih => simpa using ih

theorem register_all_eq (safeEvalD : List Char → Dom) (smart : Bool)
    (exprs : List (List Char)) :
    register_all safeEvalD smart exprs =
      apply_updates [] (exprs.flatMap (updates_of safeEvalD smart)) := by
  have gen : ∀ (es : List (List Char)) (m : KeyMap),
      es.foldl
        (fun acc e =>
          match acc with
          | Except.ok m => parse_expr safeEvalD smart m e
          | Except.error err => Except.error err)
        (Except.ok m) =
      apply_updates m (es.flatMap (updates_of safeEvalD smart)) := by
    intro es
    induction es with
    | nil => intro m; rfl
    | cons e rest ih =>
        intro m
        simp only [List.foldl_cons, List.flatMap_cons]
        rw [apply_updates_append]
        unfold parse_expr
        cases hmu : apply_updates m (updates_of safeEvalD smart e) with
        | ok m' =>
            simp only [hmu]
            exact ih m'
        | error err =>
            simp only [hmu]
            exact register_fold_error safeEvalD smart rest err
  exact gen exprs []

theorem not_mem_keys_of_lookup_none {α β : Type} [DecidableEq α] (m : List (α × β)) (k : α)
    (h : dlookup m k = none) : k ∉ m.map Prod.fst := by
  intro hmem
  have := dlookup_isSome_of_mem_keys m k hmem
  rw [h] at this
  simp at this

theorem apply_updates_ok (us : List (Key × List Code)) :
    ∀ m : KeyMap, (∀ kv ∈ m, ∃ cs, kv.2 = MapVal.codes cs) →
      ∃ m', apply_updates m us = Except.ok m' ∧
        (∀ kv ∈ m', ∃ cs, kv.2 = MapVal.codes cs) ∧
        (∀ k : Key, k ∈ m'.map Prod.fst ↔ (k ∈ m.map Prod.fst ∨ k ∈ us.map Prod.fst)) ∧
        ((m.map Prod.fst).Nodup → (m'.map Prod.fst).Nodup) ∧
        (∀ k c, c ∈ codesOf m' k ↔
          (c ∈ codesOf m k ∨ ∃ cs, (k, cs) ∈ us ∧ c ∈ cs)) := by
  induction us with
  | nil =>
      intro m hm
      exact ⟨m, rfl, hm, by simp, id, by simp⟩
  | cons u rest ih =>
      obtain ⟨k₀, cs₀⟩ := u
      intro m hm
      cases hlu : dlookup m k₀ with
      | some val =>
          cases val with
          | ids l =>
              exfalso
              obtain ⟨cs, hcs⟩ := hm _ (dlookup_mem_pair m k₀ _ hlu)
              exact MapVal.noConfusion hcs
          | codes cs =>
              have hstep : map_update m k₀ cs₀ =
                  Except.ok (dinsert m k₀ (MapVal.codes (set_union cs cs₀))) := by
                unfold map_update
                rw [hlu]
              set m₁ := dinsert m k₀ (MapVal.codes (set_union cs cs₀)) with hm₁
              have hk0 : k₀ ∈ m.map Prod.fst := dlookup_mem_keys _ _ _ hlu
              have hkeq : m₁.map Prod.fst = m.map Prod.fst := dinsert_keys_mem m k₀ _ hk0
              have hall₁ : ∀ kv ∈ m₁, ∃ cs', kv.2 = MapVal.codes cs' := by
                intro kv hkv
                rcases mem_dinsert m k₀ _ kv hkv with h' | h'
                · exact hm _ h'
                · exact ⟨set_union cs cs₀, by rw [h']⟩
              obtain ⟨m', hap, hc', hks', hnd', hcod'⟩ := ih m₁ hall₁
              refine ⟨m', ?_, hc', ?_, ?_, ?_⟩
              · show (match map_update m k₀ cs₀ with
                  | Except.ok m₂ => apply_updates m₂ rest
                  | Except.error e => Except.error e) = Except.ok m'
                rw [hstep]
                exact hap
              · intro k
                rw [hks' k, hkeq]
                simp only [List.map_cons, List.mem_cons]
                constructor
                · rintro (h | h)
                  · exact Or.inl h
                  · exact Or.inr (Or.inr h)
                · rintro (h | h | h)
                  · exact Or.inl h
                  · exact Or.inl (h ▸ hk0)
                  · exact Or.inr h
              · intro h
                exact hnd' (hkeq ▸ h)
              · intro k c
                rw [hcod' k c]
                by_cases hk : k = k₀
                · subst hk
                  have h1 : codesOf m₁ k = set_union cs cs₀ := by
                    unfold codesOf
                    rw [hm₁, dlookup_dinsert]
                  have h2 : codesOf m k = cs := by
                    unfold codesOf
                    rw [hlu]
                  rw [h1, h2, mem_set_union]
                  constructor
                  · rintro ((h | h) | ⟨cs', hmem, hc⟩)
                    · exact Or.inl h
                    · exact Or.inr ⟨cs₀, List.mem_cons_self _ _, h⟩
                    · exact Or.inr ⟨cs', List.mem_cons_of_mem _ hmem, hc⟩
                  · rintro (h | ⟨cs', hmem, hc⟩)
                    · exact Or.inl (Or.inl h)
                    · rcases List.mem_cons.mp hmem with h' | h'
                      · obtain ⟨he1, he2⟩ := Prod.mk.injEq .. ▸ h'
                        exact Or.inl (Or.inr (he2 ▸ hc))
                      · exact Or.inr ⟨cs', h', hc⟩
                · have h1 : codesOf m₁ k = codesOf m k := by
                    unfold codesOf
                    rw [hm₁, dlookup_dinsert_ne _ _ _ _ hk]
                  rw [h1]
                  constructor
                  · rintro (h | ⟨cs', hmem, hc⟩)
                    · exact Or.inl h
                    · exact Or.inr ⟨cs', List.mem_cons_of_mem _ hmem, hc⟩
                  · rintro (h | ⟨cs', hmem, hc⟩)
                    · exact Or.inl h
                    · rcases List.mem_cons.mp hmem with h' | h'
                      · exact absurd (congrArg Prod.fst h') hk
                      · exact Or.inr ⟨cs', h', hc⟩
      | none =>
          have hstep : map_update m k₀ cs₀ =
              Except.ok (m ++ [(k₀, MapVal.codes cs₀)]) := by
            unfold map_update
            rw [hlu]
          set m₁ := m ++ [(k₀, MapVal.codes cs₀)] with hm₁
          have hk0 : k₀ ∉ m.map Prod.fst := not_mem_keys_of_lookup_none m k₀ hlu
          have hkeq : m₁.map Prod.fst = m.map Prod.fst ++ [k₀] := by
            rw [hm₁, List.map_append]
            rfl
          have hall₁ : ∀ kv ∈ m₁, ∃ cs', kv.2 = MapVal.codes cs' := by
            intro kv hkv
            rcases List.mem_append.mp hkv with h' | h'
            · exact hm _ h'
            · simp only [List.mem_singleton] at h'
              exact ⟨cs₀, by rw [h']⟩
          obtain ⟨m', hap, hc', hks', hnd', hcod'⟩ := ih m₁ hall₁
          refine ⟨m', ?_, hc', ?_, ?_, ?_⟩
          · show (match map_update m k₀ cs₀ with
              | Except.ok m₂ => apply_updates m₂ rest
              | Except.error e => Except.error e) = Except.ok m'
            rw [hstep]
            exact hap
          · intro k
            rw [hks' k, hkeq]
            simp only [List.map_cons, List.mem_cons, List.mem_append, List.mem_singleton,
              List.not_mem_nil, or_false]
            tauto
          · intro h
            refine hnd' ?_
            rw [hkeq]
            refine List.Nodup.append h (List.nodup_singleton _) ?_
            intro a ha hb
            simp only [List.mem_singleton] at hb
            exact hk0 (hb ▸ ha)
          · intro k c
            rw [hcod' k c]
            by_cases hk : k = k₀
            · subst hk
              have h1 : codesOf m₁ k = cs₀ := by
                unfold codesOf
                rw [hm₁, dlookup_append, hlu]
                simp [dlookup]
              have h2 : codesOf m k = [] := by
                unfold codesOf
                rw [hlu]
              rw [h1, h2]
              constructor
              · rintro (h | ⟨cs', hmem, hc⟩)
                · exact Or.inr ⟨cs₀, List.mem_cons_self _ _, h⟩
                · exact Or.inr ⟨cs', List.mem_cons_of_mem _ hmem, hc⟩
              · rintro (h | ⟨cs', hmem, hc⟩)
                · simp at h
                · rcases List.mem_cons.mp hmem with h' | h'
                  · obtain ⟨he1, he2⟩ := Prod.mk.injEq .. ▸ h'
                    exact Or.inl (he2 ▸ hc)
                  · exact Or.inr ⟨cs', h', hc⟩
            · have h1 : codesOf m₁ k = codesOf m k := by
                unfold codesOf
                rw [hm₁, dlookup_append]
                cases hmk : dlookup m k with
                | some v => rfl
                | none =>
                    have : dlookup [(k₀, MapVal.codes cs₀)] k = none := by
                      simp [dlookup, hk]
                    rw [this]
              rw [h1]
              constructor
              · rintro (h | ⟨cs', hmem, hc⟩)
                · exact Or.inl h
                · exact Or.inr ⟨cs', List.mem_cons_of_mem _ hmem, hc⟩
              · rintro (h | ⟨cs', hmem, hc⟩)
                · exact Or.inl h
                · rcases List.mem_cons.mp hmem with h' | h'
                  · exact absurd (congrArg Prod.fst h') hk
                  · exact Or.inr ⟨cs', h', hc⟩

theorem query_fold_count (ext : ExtWorld) (procErd : Option Char) (tc : Nat) (smart : Bool)
    (keys : List Key) (st : Data × List Key × Nat) :
    (keys.foldl (query_step ext procErd tc smart) st).2.2 =
      st.2.2 + (keys.filter (fun k => !decide (k.mode = Mode.e ∧ smart = true))).length := by
  induction keys generalizing st with
  | nil => simp
  | cons k rest ih =>
      simp only [List.foldl_cons]
      rw [ih]
      obtain ⟨data, ends, n⟩ := st
      unfold query_step
      dsimp only
      by_cases hc : k.mode = Mode.e ∧ smart = true
      · rw [if_pos hc]
        simp [List.filter_cons, hc]
      · rw [if_neg hc]
        have : (!decide (k.mode = Mode.e ∧ smart = true)) = true := by
          simp [hc]
        simp only [List.filter_cons, this, if_true, List.length_cons]
        omega

/-- C2: registering any list of expressions from a fresh processor always
succeeds and yields, for every key, the union of the account selector sets
of all matches contributing that key (regardless of which or how many
expressions they came from); and `do_queries` then issues exactly one
grouped-sum ledger query per distinct non-deferred key — the query count
is the cardinality of the distinct non-deferred key set, independent of
the number of contributing expression occurrences. -/
theorem dedup_one_query_per_key (safeEvalD : List Char → Dom) (smart : Bool)
    (exprs : List (List Char)) (ext : ExtWorld) (procErd : Option Char) (tc : Nat) :
    ∃ m : KeyMap, register_all safeEvalD smart exprs = Except.ok m ∧
      (∀ k c, c ∈ codesOf m k ↔
        ∃ cs, (k, cs) ∈ exprs.flatMap (updates_of safeEvalD smart) ∧ c ∈ cs) ∧
      (do_queries ext procErd tc smart (m.map Prod.fst)).2 =
        (((exprs.flatMap (updates_of safeEvalD smart)).map Prod.fst).toFinset.filter
          (fun k => ¬(k.mode = Mode.e ∧ smart = true))).card := by
  obtain ⟨m, hap, hcodes, hkeys, hnd, hcod⟩ :=
    apply_updates_ok (exprs.flatMap (updates_of safeEvalD smart)) [] (by simp)
  have hndm : (m.map Prod.fst).Nodup := hnd (by simp)
  refine ⟨m, ?_, ?_, ?_⟩
  · rw [register_all_eq]
    exact hap
  · intro k c
    rw [hcod k c]
    simp [codesOf]
  · have hcount : (do_queries ext procErd tc smart (m.map Prod.fst)).2 =
        ((m.map Prod.fst).filter
          (fun k => !decide (k.mode = Mode.e ∧ smart = true))).length := by
      unfold do_queries
      dsimp only
      rw [query_fold_count]
      simp
    rw [hcount]
    have hfnd : ((m.map Prod.fst).filter
        (fun k => !decide (k.mode = Mode.e ∧ smart = true))).Nodup :=
      hndm.filter _
    rw [← List.toFinset_card_of_nodup hfnd, List.toFinset_filter]
    have hsets : (m.map Prod.fst).toFinset =
        ((exprs.flatMap (updates_of safeEvalD smart)).map Prod.fst).toFinset := by
      apply Finset.ext
      intro k
      simp only [List.mem_toFinset]
      rw [hkeys k]
      simp
    rw [hsets]
    congr 1
    apply Finset.ext
    intro k
    simp
    intros
    tauto
